import Mathlib

/-!
Verification of the location-resolution core of the bamboo-employee-map
repository (src/src/content.js and the map renderer).  Strings are modelled
as Lean `String`s (lists of unicode scalar values); JavaScript numbers are
modelled as `ℚ` for coordinates and as `ℝ` for the logarithmic pin scale.
`String.prototype.toLowerCase` and NFD decomposition are modelled on the
Basic Latin and Latin-1 ranges (identity elsewhere), which covers the
character classes the code's regexes and comparisons depend on.
-/

namespace Bamboo

/-- The JavaScript `\s` character class (and the set trimmed by
`String.prototype.trim`): tab through carriage return, space, NBSP, Ogham
space mark, the U+2000 block, line/paragraph separators, narrow NBSP,
medium mathematical space, ideographic space and the BOM. -/
def jsWsB (c : Char) : Bool :=
  decide (c.toNat = 32 ∨ (9 ≤ c.toNat ∧ c.toNat ≤ 13) ∨ c.toNat = 160 ∨
    c.toNat = 5760 ∨ (8192 ≤ c.toNat ∧ c.toNat ≤ 8202) ∨ c.toNat = 8232 ∨
    c.toNat = 8233 ∨ c.toNat = 8239 ∨ c.toNat = 8287 ∨ c.toNat = 12288 ∨
    c.toNat = 65279)

/-- Lowercase ASCII letter. -/
def isLowerB (c : Char) : Bool := decide (97 ≤ c.toNat ∧ c.toNat ≤ 122)

/-- ASCII digit. -/
def isDigitB (c : Char) : Bool := decide (48 ≤ c.toNat ∧ c.toNat ≤ 57)

/-- Characters kept by `normalize`'s final filter `[^a-z0-9\s]` (the code
removes everything outside lowercase letters, digits and `\s`). -/
def allowedB (c : Char) : Bool := isLowerB c || isDigitB c || jsWsB c

/-- `String.prototype.toLowerCase`, modelled on Basic Latin ('A'-'Z') and
Latin-1 ('À'-'Þ' except '×'); identity on other characters. -/
def jsToLower (c : Char) : Char :=
  if 65 ≤ c.toNat ∧ c.toNat ≤ 90 then Char.ofNat (c.toNat + 32)
  else if 192 ≤ c.toNat ∧ c.toNat ≤ 222 ∧ c.toNat ≠ 215 then Char.ofNat (c.toNat + 32)
  else c

/-- Combining diacritical marks block U+0300-U+036F, the class the code
strips with `.replace(/[̀-ͯ]/g, '')`. -/
def isCombiningB (c : Char) : Bool := decide (768 ≤ c.toNat ∧ c.toNat ≤ 879)

/-- NFD decomposition table for the precomposed Latin-1 lowercase letters
(the letters that survive `toLowerCase` on the modelled range). -/
def nfdTable : List (Char × List Char) :=
  [('à', ['a', Char.ofNat 768]), ('á', ['a', Char.ofNat 769]),
   ('â', ['a', Char.ofNat 770]), ('ã', ['a', Char.ofNat 771]),
   ('ä', ['a', Char.ofNat 776]), ('å', ['a', Char.ofNat 778]),
   ('ç', ['c', Char.ofNat 807]), ('è', ['e', Char.ofNat 768]),
   ('é', ['e', Char.ofNat 769]), ('ê', ['e', Char.ofNat 770]),
   ('ë', ['e', Char.ofNat 776]), ('ì', ['i', Char.ofNat 768]),
   ('í', ['i', Char.ofNat 769]), ('î', ['i', Char.ofNat 770]),
   ('ï', ['i', Char.ofNat 776]), ('ñ', ['n', Char.ofNat 771]),
   ('ò', ['o', Char.ofNat 768]), ('ó', ['o', Char.ofNat 769]),
   ('ô', ['o', Char.ofNat 770]), ('õ', ['o', Char.ofNat 771]),
   ('ö', ['o', Char.ofNat 776]), ('ù', ['u', Char.ofNat 768]),
   ('ú', ['u', Char.ofNat 769]), ('û', ['u', Char.ofNat 770]),
   ('ü', ['u', Char.ofNat 776]), ('ý', ['y', Char.ofNat 769]),
   ('ÿ', ['y', Char.ofNat 776])]

/-- Per-character NFD decomposition (`String.prototype.normalize('NFD')`),
modelled on the Latin-1 letters U+00E0-U+00FF; identity elsewhere. -/
def nfdChar (c : Char) : List Char :=
  if 224 ≤ c.toNat ∧ c.toNat ≤ 255 then
    match nfdTable.find? (fun p => p.1 = c) with
    | some p => p.2
    | none => [c]
  else [c]

/-- `trim` on character lists: drop the `\s` class from both ends. -/
def jsTrimL (l : List Char) : List Char :=
  ((l.dropWhile jsWsB).reverse.dropWhile jsWsB).reverse

/-- The normalize pipeline on character lists, in the source's order:
lowercase, NFD, strip combining marks, remove `[^a-z0-9\s]`, trim. -/
def normalizeL (l : List Char) : List Char :=
  jsTrimL ((((l.map jsToLower).flatMap nfdChar).filter
    (fun c => !(isCombiningB c))).filter allowedB)

/-- `normalize(str)` from content.js:
`str.toLowerCase().normalize('NFD').replace(/[̀-ͯ]/g, '')
   .replace(/[^a-z0-9\s]/g, '').trim()` (with `normalize('') = ''` from the
falsy guard; the pipeline maps `''` to `''` anyway). -/
def normalize (s : String) : String := String.mk (normalizeL s.data)

-- Sanity checks while developing (kept as closed examples).

/-- One element of a removal pattern: `\s*`, `-?`, or a case-insensitive
literal word. -/
inductive PatElem : Type
  | ws : PatElem
  | hyphO : PatElem
  | lit : List Char → PatElem
deriving DecidableEq

/-- Match a case-insensitive literal at the head of the input; returns the
remainder on success. -/
def matchLit : List Char → List Char → Option (List Char)
  | [], cs => some cs
  | _ :: _, [] => none
  | a :: L, c :: cs => if jsToLower c = a then matchLit L cs else none

/-- Match a single pattern element at the head of the input (greedy). -/
def matchElem : PatElem → List Char → Option (List Char)
  | PatElem.ws, cs => some (cs.dropWhile jsWsB)
  | PatElem.hyphO, [] => some []
  | PatElem.hyphO, c :: cs => if c = '-' then some cs else some (c :: cs)
  | PatElem.lit L, cs => matchLit L cs

/-- Match a whole pattern at the head of the input. -/
def matchSeq : List PatElem → List Char → Option (List Char)
  | [], cs => some cs
  | p :: ps, cs =>
    match matchElem p cs with
    | none => none
    | some r => matchSeq ps r

/-- `/\s*-?\s*work\s*from\s*home\s*/gi` -/
def p1pat : List PatElem :=
  [PatElem.ws, PatElem.hyphO, PatElem.ws, PatElem.lit ['w','o','r','k'],
   PatElem.ws, PatElem.lit ['f','r','o','m'], PatElem.ws,
   PatElem.lit ['h','o','m','e'], PatElem.ws]

/-- `/\s*-?\s*wfh\s*/gi` -/
def p2pat : List PatElem :=
  [PatElem.ws, PatElem.hyphO, PatElem.ws, PatElem.lit ['w','f','h'], PatElem.ws]

/-- `/\s*-?\s*home\s*office\s*/gi` -/
def p3pat : List PatElem :=
  [PatElem.ws, PatElem.hyphO, PatElem.ws, PatElem.lit ['h','o','m','e'],
   PatElem.ws, PatElem.lit ['o','f','f','i','c','e'], PatElem.ws]

/-- `/\s*-?\s*office\s*/gi` -/
def p4pat : List PatElem :=
  [PatElem.ws, PatElem.hyphO, PatElem.ws,
   PatElem.lit ['o','f','f','i','c','e'], PatElem.ws]

/-- `/^\s*remote\s*-?\s*/gi` (anchored at the start) -/
def p5pat : List PatElem :=
  [PatElem.ws, PatElem.lit ['r','e','m','o','t','e'], PatElem.ws,
   PatElem.hyphO, PatElem.ws]

/-- `/\s*-?\s*remote\s*$/gi` (anchored at the end) -/
def p6pat : List PatElem :=
  [PatElem.ws, PatElem.hyphO, PatElem.ws,
   PatElem.lit ['r','e','m','o','t','e'], PatElem.ws]

/-- Global (`g`-flag) replacement of every match of an unanchored pattern by
a single space, scanning left to right and resuming after each match.  Fuel
equals the input length; every successful match of the patterns above
consumes at least its literal, so fuel never runs out
(`replaceAllF_fuel_irrelevant` below). -/
def replaceAllF (pat : List PatElem) : Nat → List Char → List Char
  | 0, l => l
  | _ + 1, [] => []
  | n + 1, c :: cs =>
    match matchSeq pat (c :: cs) with
    | some r => ' ' :: replaceAllF pat n r
    | none => c :: replaceAllF pat n cs

/-- Replace every match of `pat` by a single space (JS
`str.replace(pat, ' ')` with the `g` flag). -/
def replaceAll (pat : List PatElem) (l : List Char) : List Char :=
  replaceAllF pat l.length l

/-- Replace a match of the start-anchored pattern `p5pat` by a space (at
most one match is possible since `^` only matches at index 0). -/
def replaceStartAnchored (l : List Char) : List Char :=
  match matchSeq p5pat l with
  | some r => ' ' :: r
  | none => l

/-- Does the end-anchored pattern `p6pat` match this entire suffix? -/
def isEndMatch (l : List Char) : Bool :=
  match matchSeq p6pat l with
  | some [] => true
  | _ => false

/-- Replace the leftmost suffix-match of `p6pat` by a space. -/
def replaceEndAnchored : List Char → List Char
  | [] => []
  | c :: cs => if isEndMatch (c :: cs) then [' '] else c :: replaceEndAnchored cs

/-- The six `removePatterns` applied in source order, each replacing its
matches with a single space. -/
def stripPhrases (l : List Char) : List Char :=
  replaceEndAnchored (replaceStartAnchored (replaceAll p4pat (replaceAll p3pat
    (replaceAll p2pat (replaceAll p1pat l)))))

/-- Whitespace collapsing `str.replace(/\s+/g, ' ')` (state: not after a
whitespace run / after one). -/
def collapseGo : Bool → List Char → List Char
  | _, [] => []
  | prevWs, c :: cs =>
    if jsWsB c then
      if prevWs then collapseGo true cs else ' ' :: collapseGo true cs
    else c :: collapseGo false cs

/-- `str.replace(/\s+/g, ' ')`. -/
def collapseWs (l : List Char) : List Char := collapseGo false l

/-- Is the character one of the split delimiters `[,\-]`? -/
def isDelimB (c : Char) : Bool := c = ',' || c = '-'

/-- `str.split(/[,\-]+/)` : split on maximal runs of commas and hyphens,
keeping empty fragments at the ends exactly as JavaScript does. -/
def splitDelims : List Char → List (List Char)
  | [] => [[]]
  | c :: cs =>
    if isDelimB c then
      match cs with
      | [] => [[], []]
      | d :: _ => if isDelimB d then splitDelims cs else [] :: splitDelims cs
    else
      match splitDelims cs with
      | [] => [[c]]
      | f :: rest => (c :: f) :: rest

/-- Fragments after split, trim and dropping empties:
`str.split(/[,\-]+/).map(p => p.trim()).filter(p => p)`. -/
def partsFromL (l : List Char) : List (List Char) :=
  ((splitDelims l).map jsTrimL).filter (fun p => p ≠ [])

/-- `ParsedLocation`: the original string plus its candidate tokens. -/
structure ParsedLocation : Type where
  original : String
  parts : List String
deriving DecidableEq

/-- The cleaned string of `parseLocation` before the fallback: trim, apply
the six removal patterns, re-collapse whitespace, trim. -/
def cleanLocation (raw : String) : String :=
  String.mk (jsTrimL (collapseWs (stripPhrases (jsTrimL raw.data))))

/-- The string `parseLocation` actually splits: the cleaned string, or the
original trimmed input when cleaning produced the empty string. -/
def fallbackStr (raw : String) : String :=
  if cleanLocation raw = "" then String.mk (jsTrimL raw.data) else cleanLocation raw

/-- `parseLocation(locationStr)` from content.js: falsy guard, trim, ordered
phrase removal, whitespace collapse + trim, fallback to the trimmed
original when stripping emptied the string, split on `[,\-]+`, trim parts
and drop empties; `null` when no parts remain. -/
def parseLocation (raw : String) : Option ParsedLocation :=
  if raw = "" then none
  else if partsFromL (fallbackStr raw).data = [] then none
  else some ⟨raw, (partsFromL (fallbackStr raw).data).map String.mk⟩

/-- One gazetteer entry `{name, code, lat, lng}` (coordinates as `ℚ`). -/
structure GeoEntry : Type where
  name : String
  code : String
  lat : ℚ
  lng : ℚ
deriving DecidableEq

/-- The loaded `data/cities.json` document: `countries` plus the three
subdivision lists `states.US`, `states.CA`, `states.AU`. -/
structure GeoData : Type where
  countries : List GeoEntry
  statesUS : List GeoEntry
  statesCA : List GeoEntry
  statesAU : List GeoEntry
deriving DecidableEq

/-- A geocode result `{lat, lng, name, displayName}`. -/
structure GeocodeResult : Type where
  lat : ℚ
  lng : ℚ
  name : String
  displayName : String
deriving DecidableEq

/-- `str.toLowerCase()` on whole strings (for the `code` comparison, which
lowercases but does not normalize). -/
def jsLowerStr (s : String) : String := String.mk (s.data.map jsToLower)

/-- The shared matching rule of `findUSState` / `findCAProvince` /
`findAUState` / `findCountry`: first entry whose normalized `name` equals
the normalized token, or whose lowercased `code` equals it; `null` when the
token is empty (the `!str` guard). -/
def findIn (entries : List GeoEntry) (tok : String) : Option GeoEntry :=
  if tok = "" then none
  else entries.find? (fun e => normalize e.name = normalize tok ∨
    jsLowerStr e.code = normalize tok)

/-- `findUSState` (tier 1). -/
def findUSState (d : GeoData) (tok : String) : Option GeoEntry := findIn d.statesUS tok

/-- `findCAProvince` (tier 2). -/
def findCAProvince (d : GeoData) (tok : String) : Option GeoEntry := findIn d.statesCA tok

/-- `findAUState` (tier 3). -/
def findAUState (d : GeoData) (tok : String) : Option GeoEntry := findIn d.statesAU tok

/-- `findCountry` (tier 4). -/
def findCountry (d : GeoData) (tok : String) : Option GeoEntry := findIn d.countries tok

/-- Result built from a US-state match: qualified name plus short name. -/
def mkUS (s : GeoEntry) : GeocodeResult :=
  ⟨s.lat, s.lng, s.name ++ ", United States", s.name⟩

/-- Result built from a Canadian-province match. -/
def mkCA (p : GeoEntry) : GeocodeResult := ⟨p.lat, p.lng, p.name ++ ", Canada", p.name⟩

/-- Result built from an Australian-state match. -/
def mkAU (a : GeoEntry) : GeocodeResult := ⟨a.lat, a.lng, a.name ++ ", Australia", a.name⟩

/-- Result built from a country match. -/
def mkCountry (c : GeoEntry) : GeocodeResult := ⟨c.lat, c.lng, c.name, c.name⟩

/-- The tier chain of `geocode`'s loop body for one token: US state, then
Canadian province, then Australian state, then country. -/
def resolveToken (d : GeoData) (tok : String) : Option GeocodeResult :=
  match findUSState d tok with
  | some s => some (mkUS s)
  | none =>
    match findCAProvince d tok with
    | some p => some (mkCA p)
    | none =>
      match findAUState d tok with
      | some a => some (mkAU a)
      | none =>
        match findCountry d tok with
        | some c => some (mkCountry c)
        | none => none

/-- `geocode`'s token loop: first token whose tier chain matches wins. -/
def resolveParts (d : GeoData) : List String → Option GeocodeResult
  | [] => none
  | p :: rest =>
    match resolveToken d p with
    | some r => some r
    | none => resolveParts d rest

/-- Cache-free resolution of a raw string against loaded data: the falsy
guard, `parseLocation`, then the token/tier loop.  This is what one
`geocode` call computes on a cache miss. -/
def geocodePure (d : GeoData) (raw : String) : Option GeocodeResult :=
  if raw = "" then none
  else
    match parseLocation raw with
    | none => none
    | some pl => resolveParts d pl.parts

/-- The memoization cache: normalized string to result-or-none. -/
def Cache : Type := List (String × Option GeocodeResult)

/-- `cache.get`/`cache.has` on the association list. -/
def cacheGet (cache : Cache) (k : String) : Option (Option GeocodeResult) :=
  (List.find? (fun p => p.1 = k) cache).map (fun p => p.2)

/-- `geocode(locationStr)` from content.js, with the module state made
explicit: `dOpt` is the loaded gazetteer (`none` when loading failed) and
`cache` the memoization map.  Returns the result, the updated cache, and
whether the tier-matching resolver ran (the loop over
`parsed.parts`).  Mirrors the source order: falsy guard, cache lookup,
data guard, parse (returning `null` uncached when parsing fails), tier
loop, `cache.set`. -/
def geocode (dOpt : Option GeoData) (cache : Cache) (raw : String) :
    Option GeocodeResult × Cache × Bool :=
  if raw = "" then (none, cache, false)
  else
    match cacheGet cache (normalize raw) with
    | some v => (v, cache, false)
    | none =>
      match dOpt with
      | none => (none, cache, false)
      | some d =>
        match parseLocation raw with
        | none => (none, cache, false)
        | some pl =>
          let r := resolveParts d pl.parts
          (r, (normalize raw, r) :: cache, true)

/-- Loop of `[...new Set(list)]` with the set of already-seen values made
explicit. -/
def jsDedupGo (seen : List String) : List String → List String
  | [] => []
  | a :: l => if a ∈ seen then jsDedupGo seen l else a :: jsDedupGo (a :: seen) l

/-- `[...new Set(list)]`: deduplication keeping first occurrences. -/
def jsDedup (l : List String) : List String := jsDedupGo [] l

/-- The sequential loop of `geocodeBatch` over the unique location strings,
threading the cache; an entry is added to the result map only when
`geocode` returned a result. -/
def batchGo (dOpt : Option GeoData) (cache : Cache) :
    List String → List (String × GeocodeResult) × Cache
  | [] => ([], cache)
  | loc :: rest =>
    let o := geocode dOpt cache loc
    let rec_ := batchGo dOpt o.2.1 rest
    (match o.1 with
     | some r => (loc, r) :: rec_.1
     | none => rec_.1, rec_.2)

/-- `geocodeBatch(locations)`: drop falsy entries, deduplicate, resolve each
unique string once through the cache, and map only resolved strings. -/
def geocodeBatch (dOpt : Option GeoData) (cache : Cache) (locs : List String) :
    List (String × GeocodeResult) × Cache :=
  batchGo dOpt cache (jsDedup (locs.filter (fun l => l ≠ "")))

/-- `results.get(location)` on the batch output. -/
def lookupStr (m : List (String × GeocodeResult)) (k : String) :
    Option GeocodeResult :=
  (List.find? (fun p => p.1 = k) m).map (fun p => p.2)

/-- Two-decimal rendering of a nonnegative rational rounded per
`Number.prototype.toFixed`: the integer `n` minimizing `|n/100 - q|`, ties
to the larger `n`. -/
def natFixed2 (n : Nat) : String :=
  toString (n / 100) ++ "." ++
    (if n % 100 < 10 then "0" ++ toString (n % 100) else toString (n % 100))

/-- `⌊x * 100 + 1/2⌋` for `x = num/den`, computed on the numerator and
denominator (`round2_eq_floor` certifies the identity); this is the integer
`n` minimizing `|n/100 - x|` with ties to the larger `n`. -/
def round2 (num : Int) (den : Nat) : Int := (200 * num + den) / (2 * (den : Int))

/-- `q.toFixed(2)` on `ℚ`, following the ECMAScript algorithm: a leading
sign for negative inputs, then round half toward the larger integer. -/
def ratToFixed2 (q : ℚ) : String :=
  if q.num < 0 then "-" ++ natFixed2 (round2 (-q.num) q.den).toNat
  else natFixed2 (round2 q.num q.den).toNat

/-- The clustering key `` `${coords.lat.toFixed(2)},${coords.lng.toFixed(2)}` ``. -/
def coordKey (c : GeocodeResult) : String :=
  ratToFixed2 c.lat ++ "," ++ ratToFixed2 c.lng

/-- A person record as the grouping code sees it: `id` plus the `location`
string (the other display fields are opaque to the core). -/
structure Employee : Type where
  id : Nat
  location : String
deriving DecidableEq

/-- One value of the `groups` map:
`{lat, lng, name, employees}`. -/
structure LocGroup : Type where
  lat : ℚ
  lng : ℚ
  name : String
  employees : List Employee
deriving DecidableEq

/-- Lookup in the ordered groups map. -/
def assocGet (gs : List (String × LocGroup)) (k : String) : Option LocGroup :=
  (List.find? (fun p => p.1 = k) gs).map (fun p => p.2)

/-- In-place update of the (unique) entry with the given key, preserving
order — the effect of `groups.get(key).employees.push(employee)`. -/
def assocSet : List (String × LocGroup) → String → LocGroup →
    List (String × LocGroup)
  | [], k, g => [(k, g)]
  | (k', g') :: rest, k, g =>
    if k' = k then (k, g) :: rest else (k', g') :: assocSet rest k g

/-- The per-person resolution used inside the grouping loop: skip falsy
locations, then `geocoded.get(employee.location)`. -/
def resE (geocoded : List (String × GeocodeResult)) (e : Employee) :
    Option GeocodeResult :=
  if e.location = "" then none else lookupStr geocoded e.location

/-- Body of the grouping loop of `groupEmployeesByLocation`: skip people
with falsy or unresolved locations; bucket by `coordKey`; a fresh bucket is
anchored at the first member's coordinates and named by the resolver's name
(falling back to the raw location when that name is empty). -/
def groupStep (geocoded : List (String × GeocodeResult))
    (gs : List (String × LocGroup)) (e : Employee) : List (String × LocGroup) :=
  match resE geocoded e with
  | none => gs
  | some c =>
    match assocGet gs (coordKey c) with
    | some g => assocSet gs (coordKey c) ⟨g.lat, g.lng, g.name, g.employees ++ [e]⟩
    | none =>
      gs ++ [(coordKey c, ⟨c.lat, c.lng,
        (if c.name = "" then e.location else c.name), [e]⟩)]

/-- The geocoded mapping that `groupEmployeesByLocation` obtains: batch
resolution of the employees' non-empty location strings from a fresh
cache. -/
def employeeGeocoded (dOpt : Option GeoData) (emps : List Employee) :
    List (String × GeocodeResult) :=
  (geocodeBatch dOpt [] ((emps.map (fun e => e.location)).filter
    (fun l => l ≠ ""))).1

/-- `groupEmployeesByLocation(employeeList)`: geocode the non-empty
locations in batch (from a fresh cache), then bucket the employees in
order by rounded-coordinate key, preserving insertion order of buckets
and members. -/
def groupEmployeesByLocation (dOpt : Option GeoData) (emps : List Employee) :
    List (String × LocGroup) :=
  emps.foldl (groupStep (employeeGeocoded dOpt emps)) []

/-- `config.pinBaseRadius`. -/
def pinBaseRadius : ℝ := 6

/-- `config.pinMaxRadius`. -/
def pinMaxRadius : ℝ := 20

/-- `getPinRadius(count, maxCount)` from the map renderer:
`pinBaseRadius + (Math.log(count + 1) / Math.log(maxCount + 1)) *
(pinMaxRadius - pinBaseRadius)`. -/
noncomputable def getPinRadius (count maxCount : ℝ) : ℝ :=
  pinBaseRadius + (Real.log (count + 1) / Real.log (maxCount + 1)) *
    (pinMaxRadius - pinBaseRadius)

/-- Number of times the tier-matching resolver runs, for a given normalized
key, over a sequence of `geocode` calls threading the cache. -/
def invCount (dOpt : Option GeoData) (k : String) : Cache → List String → Nat
  | _, [] => 0
  | c, raw :: rest =>
    (if (geocode dOpt c raw).2.2 && (normalize raw == k) then 1 else 0) +
      invCount dOpt k (geocode dOpt c raw).2.1 rest

/-- The employees that resolve, paired with their geocode results, in input
order. -/
def resolvedPairs (G : List (String × GeocodeResult)) (emps : List Employee) :
    List (Employee × GeocodeResult) :=
  emps.filterMap (fun e => (resE G e).map (fun c => (e, c)))

/-- The resolved employees whose rounded-coordinate key is `k`. -/
def bucketPairs (G : List (String × GeocodeResult)) (k : String)
    (emps : List Employee) : List (Employee × GeocodeResult) :=
  (resolvedPairs G emps).filter (fun p => coordKey p.2 = k)

/-- The group created for a fresh bucket: anchored at the first member's
coordinates, named from the resolver (or the raw location), holding the
first member and then the later ones. -/
def newBucket (e : Employee) (c : GeocodeResult) (ms : List Employee) : LocGroup :=
  ⟨c.lat, c.lng, (if c.name = "" then e.location else c.name), e :: ms⟩

/-- The bucket at key `k` after folding: the pre-existing group extended
with the matching members, or a fresh bucket anchored at the first matching
member. -/
def bucketResult (old : Option LocGroup) (ps : List (Employee × GeocodeResult)) :
    Option LocGroup :=
  match old, ps with
  | some g, ps => some ⟨g.lat, g.lng, g.name, g.employees ++ ps.map (fun p => p.1)⟩
  | none, [] => none
  | none, (e, c) :: ps => some (newBucket e c (ps.map (fun p => p.1)))

/-- Total member count across the groups map. -/
def sumLen (gs : List (String × LocGroup)) : Nat :=
  (gs.map (fun p => p.2.employees.length)).sum

/-- Qualifier-free strings: none of the removal patterns' literal cores
occurs (case-insensitively) anywhere in the string. -/
def NoQualifier (l : List Char) : Prop :=
  ¬ ['w','o','r','k'] <:+: l.map jsToLower ∧
  ¬ ['w','f','h'] <:+: l.map jsToLower ∧
  ¬ ['o','f','f','i','c','e'] <:+: l.map jsToLower ∧
  ¬ ['r','e','m','o','t','e'] <:+: l.map jsToLower

instance (l : List Char) : Decidable (NoQualifier l) := by
  unfold NoQualifier
  infer_instance

/-- California with its usual centroid coordinates. -/
def calif : GeoEntry := ⟨"California", "CA", mkRat 367783 10000, mkRat (-1194179) 10000⟩

/-- The United States country entry. -/
def usCountry : GeoEntry := ⟨"United States", "US", mkRat 398283 10000, mkRat (-985795) 10000⟩

/-- The Canada country entry. -/
def canada : GeoEntry := ⟨"Canada", "CA", mkRat 561304 10000, mkRat (-1063468) 10000⟩

/-- The United Kingdom country entry. -/
def ukCountry : GeoEntry := ⟨"United Kingdom", "UK", mkRat 553781 10000, mkRat (-34360) 10000⟩

/-- A small gazetteer: three countries and one US state. -/
def d0 : GeoData := ⟨[usCountry, canada, ukCountry], [calif], [], []⟩

/-- A gazetteer whose single country name normalizes to the empty string
(`data/cities.json` is user-editable input data, so arbitrary entries are
legitimate). -/
def dBang : GeoData := ⟨[⟨"!!!", "XX", mkRat 1 1, mkRat 2 1⟩], [], [], []⟩

/-! ### Lemmas and claim theorems -/

example : normalize "  UK " = "uk" := by decide

example : normalize "a  b" = "a  b" := by decide

theorem allowed_num (c : Char) (h : allowedB c = true) :
    (97 ≤ c.toNat ∧ c.toNat ≤ 122) ∨ (48 ≤ c.toNat ∧ c.toNat ≤ 57) ∨
    c.toNat = 32 ∨ (9 ≤ c.toNat ∧ c.toNat ≤ 13) ∨ c.toNat = 160 ∨
    c.toNat = 5760 ∨ (8192 ≤ c.toNat ∧ c.toNat ≤ 8202) ∨ c.toNat = 8232 ∨
    c.toNat = 8233 ∨ c.toNat = 8239 ∨ c.toNat = 8287 ∨ c.toNat = 12288 ∨
    c.toNat = 65279 := by
  simp [allowedB, isLowerB, isDigitB, jsWsB] at h
  omega

theorem jsToLower_allowed (c : Char) (h : allowedB c = true) :
    jsToLower c = c := by
  have hn := allowed_num c h
  unfold jsToLower
  rw [if_neg (by omega), if_neg (by omega)]

theorem nfdChar_allowed (c : Char) (h : allowedB c = true) :
    nfdChar c = [c] := by
  have hn := allowed_num c h
  unfold nfdChar
  rw [if_neg (by omega)]

theorem isCombining_allowed (c : Char) (h : allowedB c = true) :
    isCombiningB c = false := by
  have hn := allowed_num c h
  simp [isCombiningB]
  omega

theorem flatMap_singleton_id {α : Type} (l : List α) (f : α → List α)
    (h : ∀ c ∈ l, f c = [c]) : l.flatMap f = l := by
  induction l with
  | nil => rfl
  | cons a t ih =>
    simp only [List.flatMap_cons, h a (List.mem_cons_self a t)]
    simp only [List.singleton_append, List.cons.injEq, true_and]
    exact ih (fun c hc => h c (List.mem_cons_of_mem a hc))

theorem map_id_of {α : Type} (l : List α) (f : α → α) (h : ∀ c ∈ l, f c = c) :
    l.map f = l := by
  induction l with
  | nil => rfl
  | cons a t ih =>
    simp only [List.map_cons, h a (List.mem_cons_self a t), List.cons.injEq, true_and]
    exact ih (fun c hc => h c (List.mem_cons_of_mem a hc))

theorem dropWhile_idem {α : Type} (p : α → Bool) (l : List α) :
    (l.dropWhile p).dropWhile p = l.dropWhile p := by
  induction l with
  | nil => rfl
  | cons a t ih =>
    by_cases h : p a = true
    · simp [List.dropWhile_cons, h, ih]
    · simp [List.dropWhile_cons, h]

theorem dropWhile_suffix {α : Type} (p : α → Bool) (l : List α) :
    l.dropWhile p <:+ l := by
  induction l with
  | nil => exact List.suffix_refl []
  | cons a t ih =>
    by_cases h : p a = true
    · simp only [List.dropWhile_cons, h, if_true]
      exact ih.trans (List.suffix_cons a t)
    · simp only [List.dropWhile_cons, h, if_false]
      exact List.suffix_refl _

theorem prefix_dropWhile_fixed {α : Type} {p : α → Bool} {m r : List α}
    (hm : m.dropWhile p = m) (hpre : r <+: m) : r.dropWhile p = r := by
  cases r with
  | nil => rfl
  | cons x r' =>
    obtain ⟨t, ht⟩ := hpre
    have hx : p x = false := by
      by_contra hpx
      have hpx' : p x = true := by revert hpx; cases p x <;> simp
      rw [← ht, List.cons_append] at hm
      rw [List.dropWhile_cons, if_pos hpx'] at hm
      have hlen := congrArg List.length hm
      have hsuf : (r' ++ t).dropWhile p <:+ r' ++ t := dropWhile_suffix p (r' ++ t)
      have hle := hsuf.length_le
      rw [hlen] at hle
      simp at hle
    rw [List.dropWhile_cons, if_neg (by simp [hx])]

theorem jsTrimL_trailing (l : List Char) :
    (jsTrimL l).reverse.dropWhile jsWsB = (jsTrimL l).reverse := by
  unfold jsTrimL
  rw [List.reverse_reverse, dropWhile_idem]

theorem jsTrimL_prefix_core (l : List Char) :
    jsTrimL l <+: l.dropWhile jsWsB := by
  have h2 := List.reverse_prefix.mpr (dropWhile_suffix jsWsB (l.dropWhile jsWsB).reverse)
  rwa [List.reverse_reverse] at h2

theorem jsTrimL_leading (l : List Char) :
    (jsTrimL l).dropWhile jsWsB = jsTrimL l :=
  prefix_dropWhile_fixed (dropWhile_idem jsWsB l) (jsTrimL_prefix_core l)

theorem jsTrimL_idem (l : List Char) : jsTrimL (jsTrimL l) = jsTrimL l := by
  conv_lhs => rw [jsTrimL]
  rw [jsTrimL_leading, jsTrimL_trailing, List.reverse_reverse]

theorem mem_jsTrimL {c : Char} {l : List Char} (h : c ∈ jsTrimL l) : c ∈ l := by
  have h1 := (jsTrimL_prefix_core l).subset h
  exact (dropWhile_suffix jsWsB l).subset h1

theorem mem_normalizeL_allowed {c : Char} {l : List Char}
    (h : c ∈ normalizeL l) : allowedB c = true := by
  unfold normalizeL at h
  have := mem_jsTrimL h
  exact (List.mem_filter.mp this).2

theorem normalizeL_idem (l : List Char) : normalizeL (normalizeL l) = normalizeL l := by
  have hall : ∀ c ∈ normalizeL l, allowedB c = true := fun c hc => mem_normalizeL_allowed hc
  have h1 : (normalizeL l).map jsToLower = normalizeL l :=
    map_id_of _ _ (fun c hc => jsToLower_allowed c (hall c hc))
  have h2 : (normalizeL l).flatMap nfdChar = normalizeL l :=
    flatMap_singleton_id _ _ (fun c hc => nfdChar_allowed c (hall c hc))
  have h3 : (normalizeL l).filter (fun c => !(isCombiningB c)) = normalizeL l :=
    List.filter_eq_self.mpr (fun c hc => by simp [isCombining_allowed c (hall c hc)])
  have h4 : (normalizeL l).filter allowedB = normalizeL l :=
    List.filter_eq_self.mpr hall
  conv_lhs => rw [normalizeL]
  rw [h1, h2, h3, h4]
  have hex : ∃ m, normalizeL l = jsTrimL m := ⟨_, rfl⟩
  obtain ⟨m, hm⟩ := hex
  rw [hm, jsTrimL_idem]

example : parseLocation "California - Work From Home" =
    some ⟨"California - Work From Home", ["California"]⟩ := by decide

example : parseLocation "Remote - United Kingdom" =
    some ⟨"Remote - United Kingdom", ["United Kingdom"]⟩ := by decide

example : parseLocation "Remote" = some ⟨"Remote", ["Remote"]⟩ := by decide

example : parseLocation "New York" = some ⟨"New York", ["New York"]⟩ := by decide

example : parseLocation "-" = none := by decide

example : parseLocation "Officer" = some ⟨"Officer", ["r"]⟩ := by decide

example : ratToFixed2 (mkRat 561304 10000) = "56.13" := by decide

example : ratToFixed2 (mkRat (-1063468) 10000) = "-106.35" := by decide

/-- `round2` computes exactly `⌊x * 100 + 1/2⌋` of the represented
rational, certifying the numerator/denominator implementation against the
rounding formula. -/
theorem round2_eq_floor (q : ℚ) : round2 q.num q.den = Int.floor (q * 100 + 1/2) := by
  have hden : ((q.den : ℚ)) ≠ 0 := Nat.cast_ne_zero.mpr (Rat.den_ne_zero q)
  have hq : q * 100 + 1/2 =
      ((200 * q.num + (q.den : ℤ) : ℤ) : ℚ) / ((2 * q.den : ℕ) : ℚ) := by
    conv_lhs => rw [← Rat.num_div_den q]
    push_cast
    field_simp
    ring
  rw [hq, Rat.floor_intCast_div_natCast]
  unfold round2
  norm_cast

theorem cacheGet_cons (k k' : String) (v : Option GeocodeResult) (c : Cache) :
    cacheGet ((k, v) :: c) k' = if k = k' then some v else cacheGet c k' := by
  by_cases h : k = k'
  · simp [cacheGet, List.find?_cons_of_pos, h]
  · simp [cacheGet, List.find?_cons_of_neg, h]

theorem geocode_of_cached {c : Cache} {raw : String} {v : Option GeocodeResult}
    (dOpt : Option GeoData) (h : cacheGet c (normalize raw) = some v)
    (hraw : raw ≠ "") : geocode dOpt c raw = (v, c, false) := by
  simp only [geocode, if_neg hraw, h]

theorem geocode_of_miss {c : Cache} {raw : String} (d : GeoData)
    (h : cacheGet c (normalize raw) = none) (hraw : raw ≠ "") :
    geocode (some d) c raw =
      match parseLocation raw with
      | none => (none, c, false)
      | some pl => (resolveParts d pl.parts,
          (normalize raw, resolveParts d pl.parts) :: c, true) := by
  simp only [geocode, if_neg hraw, h]

theorem geocode_result_of_miss {c : Cache} {raw : String} (d : GeoData)
    (h : cacheGet c (normalize raw) = none) (hraw : raw ≠ "") :
    (geocode (some d) c raw).1 = geocodePure d raw := by
  rw [geocode_of_miss d h hraw]
  unfold geocodePure
  rw [if_neg hraw]
  cases parseLocation raw <;> rfl

theorem geocode_cache_preserved {c : Cache} {k : String} {v : Option GeocodeResult}
    (dOpt : Option GeoData) (raw : String) (h : cacheGet c k = some v) :
    cacheGet (geocode dOpt c raw).2.1 k = some v := by
  by_cases hraw : raw = ""
  · simp [geocode, hraw, h]
  · cases hc : cacheGet c (normalize raw) with
    | some w => rw [geocode_of_cached dOpt hc hraw]; exact h
    | none =>
      cases dOpt with
      | none => simp [geocode, if_neg hraw, hc, h]
      | some d =>
        rw [geocode_of_miss d hc hraw]
        cases hp : parseLocation raw with
        | none => exact h
        | some pl =>
          have hne : normalize raw ≠ k := by
            intro he
            rw [he, h] at hc
            exact Option.noConfusion hc
          simp only []
          rw [cacheGet_cons, if_neg hne]
          exact h

theorem geocode_invoked_miss {c : Cache} {raw : String} (dOpt : Option GeoData)
    (h : (geocode dOpt c raw).2.2 = true) : cacheGet c (normalize raw) = none := by
  by_cases hraw : raw = ""
  · simp [geocode, hraw] at h
  · cases hc : cacheGet c (normalize raw) with
    | some w => rw [geocode_of_cached dOpt hc hraw] at h; exact Bool.noConfusion h
    | none => rfl

theorem geocode_invoked_now_cached {c : Cache} {raw : String} (dOpt : Option GeoData)
    (h : (geocode dOpt c raw).2.2 = true) :
    cacheGet (geocode dOpt c raw).2.1 (normalize raw) =
      some ((geocode dOpt c raw).1) := by
  have hraw : raw ≠ "" := by
    intro he; simp [geocode, he] at h
  have hc : cacheGet c (normalize raw) = none := geocode_invoked_miss dOpt h
  cases dOpt with
  | none => simp [geocode, if_neg hraw, hc] at h
  | some d =>
    rw [geocode_of_miss d hc hraw] at h ⊢
    cases hp : parseLocation raw with
    | none => rw [hp] at h; exact Bool.noConfusion h
    | some pl =>
      simp only [hp]
      rw [cacheGet_cons, if_pos rfl]

theorem invCount_zero_of_cached {c : Cache} {k : String} {v : Option GeocodeResult}
    (dOpt : Option GeoData) (raws : List String) (h : cacheGet c k = some v) :
    invCount dOpt k c raws = 0 := by
  induction raws generalizing c v with
  | nil => rfl
  | cons raw rest ih =>
    unfold invCount
    have hterm : (if (geocode dOpt c raw).2.2 && (normalize raw == k) then 1 else 0) = 0 := by
      by_cases hinv : (geocode dOpt c raw).2.2 = true
      · have hmiss := geocode_invoked_miss dOpt hinv
        have hk : (normalize raw == k) = false := by
          by_cases he : normalize raw = k
          · rw [he, h] at hmiss; exact Option.noConfusion hmiss
          · simp [he]
        simp [hk]
      · simp [Bool.not_eq_true] at hinv
        simp [hinv]
    rw [hterm]
    exact Nat.zero_add _ ▸ (ih (geocode_cache_preserved dOpt raw h))

theorem invCount_le_one (dOpt : Option GeoData) (k : String) (c : Cache)
    (raws : List String) : invCount dOpt k c raws ≤ 1 := by
  induction raws generalizing c with
  | nil => exact Nat.zero_le 1
  | cons raw rest ih =>
    unfold invCount
    by_cases hinv : ((geocode dOpt c raw).2.2 && (normalize raw == k)) = true
    · have h1 : (geocode dOpt c raw).2.2 = true ∧ (normalize raw == k) = true := by
        simpa [Bool.and_eq_true] using hinv
      have hk : normalize raw = k := by
        have h2 := h1.2; simpa using h2
      have hcached := geocode_invoked_now_cached dOpt h1.1
      rw [hk] at hcached
      rw [invCount_zero_of_cached dOpt rest hcached]
      simp [hinv]
    · have hfalse : ((geocode dOpt c raw).2.2 && (normalize raw == k)) = false := by
        revert hinv
        cases ((geocode dOpt c raw).2.2 && (normalize raw == k)) <;> simp
      rw [hfalse]
      simpa using ih _

theorem mem_jsDedupGo (x : String) : ∀ (l seen : List String),
    x ∈ jsDedupGo seen l ↔ x ∈ l ∧ x ∉ seen := by
  intro l
  induction l with
  | nil => intro seen; simp [jsDedupGo]
  | cons a t ih =>
    intro seen
    by_cases ha : a ∈ seen
    · rw [jsDedupGo, if_pos ha, ih seen]
      simp only [List.mem_cons]
      constructor
      · rintro ⟨hx, hs⟩
        exact ⟨Or.inr hx, hs⟩
      · rintro ⟨hx | hx, hs⟩
        · exact absurd (hx.symm ▸ ha) hs
        · exact ⟨hx, hs⟩
    · rw [jsDedupGo, if_neg ha]
      simp only [List.mem_cons, ih (a :: seen)]
      constructor
      · rintro (hx | ⟨hx, hs⟩)
        · exact ⟨Or.inl hx, hx.symm ▸ ha⟩
        · exact ⟨Or.inr hx, fun hxs => hs (Or.inr hxs)⟩
      · rintro ⟨hx | hx, hs⟩
        · exact Or.inl hx
        · by_cases hxa : x = a
          · exact Or.inl hxa
          · exact Or.inr ⟨hx, fun hcs => hcs.elim hxa hs⟩

theorem mem_jsDedup (x : String) (l : List String) : x ∈ jsDedup l ↔ x ∈ l := by
  unfold jsDedup
  rw [mem_jsDedupGo]
  simp

theorem lookupStr_cons (k k' : String) (r : GeocodeResult)
    (m : List (String × GeocodeResult)) :
    lookupStr ((k, r) :: m) k' = if k = k' then some r else lookupStr m k' := by
  by_cases h : k = k'
  · simp [lookupStr, List.find?_cons_of_pos, h]
  · simp [lookupStr, List.find?_cons_of_neg, h]

theorem batchGo_spec (d : GeoData) : ∀ (us : List String) (c : Cache),
    (∀ u ∈ us, u ≠ "") →
    (∀ u ∈ us, cacheGet c (normalize u) = none) →
    (us.map normalize).Nodup →
    (∀ x, lookupStr (batchGo (some d) c us).1 x =
        if x ∈ us then geocodePure d x else none) ∧
    (batchGo (some d) c us).1.map (fun p => p.1) =
      us.filter (fun u => (geocodePure d u).isSome) := by
  intro us
  induction us with
  | nil =>
    intro c _ _ _
    constructor
    · intro x; simp [batchGo, lookupStr]
    · rfl
  | cons u rest ih =>
    intro c hne hmiss hnd
    have hu : u ≠ "" := hne u (List.mem_cons_self u rest)
    have hmu : cacheGet c (normalize u) = none := hmiss u (List.mem_cons_self u rest)
    have hres : (geocode (some d) c u).1 = geocodePure d u :=
      geocode_result_of_miss d hmu hu
    have hndrest : (rest.map normalize).Nodup := (List.nodup_cons.mp hnd).2
    have hnotin : normalize u ∉ rest.map normalize := (List.nodup_cons.mp hnd).1
    have hcache' : ∀ v ∈ rest, cacheGet (geocode (some d) c u).2.1 (normalize v) = none := by
      intro v hv
      have hvm : cacheGet c (normalize v) = none := hmiss v (List.mem_cons_of_mem u hv)
      rw [geocode_of_miss d hmu hu]
      cases hp : parseLocation u with
      | none => exact hvm
      | some pl =>
        simp only []
        rw [cacheGet_cons]
        have : normalize u ≠ normalize v := by
          intro he
          exact hnotin (he ▸ List.mem_map_of_mem normalize hv)
        rw [if_neg this]
        exact hvm
    have hrest := ih (geocode (some d) c u).2.1
      (fun v hv => hne v (List.mem_cons_of_mem u hv)) hcache' hndrest
    have hunotin : u ∉ rest := by
      intro hu'
      exact hnotin (List.mem_map_of_mem normalize hu')
    have hgo : batchGo (some d) c (u :: rest) =
        ((match (geocode (some d) c u).1 with
          | some r => (u, r) :: (batchGo (some d) (geocode (some d) c u).2.1 rest).1
          | none => (batchGo (some d) (geocode (some d) c u).2.1 rest).1),
         (batchGo (some d) (geocode (some d) c u).2.1 rest).2) := rfl
    constructor
    · intro x
      rw [hgo]
      cases hr : (geocode (some d) c u).1 with
      | some r =>
        simp only []
        rw [lookupStr_cons]
        by_cases hx : u = x
        · subst hx
          rw [if_pos rfl, if_pos (List.mem_cons_self u rest), ← hres, hr]
        · rw [if_neg hx, (hrest.1 x)]
          by_cases hxr : x ∈ rest
          · rw [if_pos hxr, if_pos (List.mem_cons_of_mem u hxr)]
          · rw [if_neg hxr, if_neg (by
              intro hmem
              rcases List.mem_cons.mp hmem with h | h
              · exact hx h.symm
              · exact hxr h)]
      | none =>
        simp only []
        rw [(hrest.1 x)]
        by_cases hx : u = x
        · subst hx
          rw [if_neg hunotin, if_pos (List.mem_cons_self u rest)]
          rw [← hres, hr]
        · by_cases hxr : x ∈ rest
          · rw [if_pos hxr, if_pos (List.mem_cons_of_mem u hxr)]
          · rw [if_neg hxr, if_neg (by
              intro hmem
              rcases List.mem_cons.mp hmem with h | h
              · exact hx h.symm
              · exact hxr h)]
    · rw [hgo]
      cases hr : (geocode (some d) c u).1 with
      | some r =>
        simp only [List.map_cons]
        rw [hrest.2]
        have : (geocodePure d u).isSome = true := by rw [← hres, hr]; rfl
        rw [List.filter_cons, if_pos this]
      | none =>
        simp only []
        rw [hrest.2]
        have : (geocodePure d u).isSome = false := by rw [← hres, hr]; rfl
        rw [List.filter_cons, if_neg (by simp [this])]

theorem assocGet_assocSet (gs : List (String × LocGroup)) (k k' : String)
    (g : LocGroup) :
    assocGet (assocSet gs k g) k' = if k = k' then some g else assocGet gs k' := by
  induction gs with
  | nil =>
    by_cases h : k = k'
    · simp [assocSet, assocGet, List.find?_cons_of_pos, h]
    · simp [assocSet, assocGet, List.find?_cons_of_neg, h]
  | cons p rest ih =>
    obtain ⟨k₁, g₁⟩ := p
    by_cases h1 : k₁ = k
    · subst h1
      rw [assocSet, if_pos rfl]
      by_cases h : k₁ = k'
      · simp [assocGet, List.find?_cons_of_pos, h]
      · simp [assocGet, List.find?_cons_of_neg, h]
    · rw [assocSet, if_neg h1]
      by_cases h : k₁ = k'
      · subst h
        have hkk : ¬ k = k₁ := fun he => h1 he.symm
        rw [if_neg hkk]
        simp [assocGet, List.find?_cons_of_pos]
      · have hfind : ∀ (tail : List (String × LocGroup)),
            assocGet ((k₁, g₁) :: tail) k' = assocGet tail k' := by
          intro tail
          simp [assocGet, List.find?_cons_of_neg, h]
        rw [hfind, hfind, ih]

theorem assocGet_append_single (gs : List (String × LocGroup)) (k k' : String)
    (g : LocGroup) :
    assocGet (gs ++ [(k, g)]) k' =
      match assocGet gs k' with
      | some g' => some g'
      | none => if k = k' then some g else none := by
  induction gs with
  | nil =>
    by_cases h : k = k'
    · simp [assocGet, List.find?_cons_of_pos, h]
    · simp [assocGet, List.find?_cons_of_neg, h]
  | cons p rest ih =>
    obtain ⟨k₁, g₁⟩ := p
    by_cases h : k₁ = k'
    · simp [assocGet, List.find?_cons_of_pos, h]
    · have hfind : ∀ (tail : List (String × LocGroup)),
          assocGet ((k₁, g₁) :: tail) k' = assocGet tail k' := by
        intro tail
        simp [assocGet, List.find?_cons_of_neg, h]
      rw [List.cons_append, hfind, hfind, ih]

theorem resolvedPairs_cons_none (G : List (String × GeocodeResult)) (e : Employee)
    (rest : List Employee) (h : resE G e = none) :
    resolvedPairs G (e :: rest) = resolvedPairs G rest := by
  simp [resolvedPairs, List.filterMap_cons, h]

theorem resolvedPairs_cons_some (G : List (String × GeocodeResult)) (e : Employee)
    (rest : List Employee) (c : GeocodeResult) (h : resE G e = some c) :
    resolvedPairs G (e :: rest) = (e, c) :: resolvedPairs G rest := by
  simp [resolvedPairs, List.filterMap_cons, h]

theorem bucketPairs_cons_none (G : List (String × GeocodeResult)) (k : String)
    (e : Employee) (rest : List Employee) (h : resE G e = none) :
    bucketPairs G k (e :: rest) = bucketPairs G k rest := by
  unfold bucketPairs
  rw [resolvedPairs_cons_none G e rest h]

theorem bucketPairs_cons_some (G : List (String × GeocodeResult)) (k : String)
    (e : Employee) (rest : List Employee) (c : GeocodeResult) (h : resE G e = some c) :
    bucketPairs G k (e :: rest) =
      if coordKey c = k then (e, c) :: bucketPairs G k rest
      else bucketPairs G k rest := by
  unfold bucketPairs
  rw [resolvedPairs_cons_some G e rest c h]
  by_cases hk : coordKey c = k
  · simp [List.filter_cons, hk]
  · simp [List.filter_cons, hk]

theorem groupStep_eq_skip (G : List (String × GeocodeResult))
    (gs : List (String × LocGroup)) (e : Employee) (h : resE G e = none) :
    groupStep G gs e = gs := by
  simp [groupStep, h]

theorem groupStep_eq_hit (G : List (String × GeocodeResult))
    (gs : List (String × LocGroup)) (e : Employee) (c : GeocodeResult) (g : LocGroup)
    (h : resE G e = some c) (hg : assocGet gs (coordKey c) = some g) :
    groupStep G gs e =
      assocSet gs (coordKey c) ⟨g.lat, g.lng, g.name, g.employees ++ [e]⟩ := by
  simp [groupStep, h, hg]

theorem groupStep_eq_miss (G : List (String × GeocodeResult))
    (gs : List (String × LocGroup)) (e : Employee) (c : GeocodeResult)
    (h : resE G e = some c) (hg : assocGet gs (coordKey c) = none) :
    groupStep G gs e =
      gs ++ [(coordKey c, ⟨c.lat, c.lng,
        (if c.name = "" then e.location else c.name), [e]⟩)] := by
  simp [groupStep, h, hg]

theorem mem_resolvedPairs (G : List (String × GeocodeResult)) (e : Employee)
    (c : GeocodeResult) (emps : List Employee) :
    (e, c) ∈ resolvedPairs G emps ↔ e ∈ emps ∧ resE G e = some c := by
  unfold resolvedPairs
  rw [List.mem_filterMap]
  constructor
  · rintro ⟨a, ha, hmap⟩
    cases hr : resE G a with
    | none => rw [hr] at hmap; exact Option.noConfusion hmap
    | some c' =>
      rw [hr] at hmap
      have hac : a = e ∧ c' = c := by simpa using hmap
      obtain ⟨he, hc⟩ := hac
      subst he
      subst hc
      exact ⟨ha, hr⟩
  · rintro ⟨he, hr⟩
    exact ⟨e, he, by rw [hr]; rfl⟩

theorem bucketResult_some (g : LocGroup) (ps : List (Employee × GeocodeResult)) :
    bucketResult (some g) ps =
      some ⟨g.lat, g.lng, g.name, g.employees ++ ps.map (fun p => p.1)⟩ := rfl

theorem bucketResult_none_nil : bucketResult none [] = none := rfl

theorem bucketResult_none_cons (e : Employee) (c : GeocodeResult)
    (ps : List (Employee × GeocodeResult)) :
    bucketResult none ((e, c) :: ps) = some (newBucket e c (ps.map (fun p => p.1))) := rfl

theorem fold_assocGet (G : List (String × GeocodeResult)) :
    ∀ (emps : List Employee) (gs : List (String × LocGroup)) (k : String),
    assocGet (emps.foldl (groupStep G) gs) k =
      bucketResult (assocGet gs k) (bucketPairs G k emps) := by
  intro emps
  induction emps with
  | nil =>
    intro gs k
    have hb : bucketPairs G k [] = [] := rfl
    rw [List.foldl_nil, hb]
    cases h : assocGet gs k with
    | some g => rw [bucketResult_some]; simp
    | none => rw [bucketResult_none_nil]
  | cons e rest ih =>
    intro gs k
    rw [List.foldl_cons]
    cases hr : resE G e with
    | none =>
      rw [groupStep_eq_skip G gs e hr, ih, bucketPairs_cons_none G k e rest hr]
    | some c =>
      rw [bucketPairs_cons_some G k e rest c hr]
      by_cases hk : coordKey c = k
      · subst hk
        rw [if_pos rfl]
        cases hg : assocGet gs (coordKey c) with
        | some g =>
          rw [groupStep_eq_hit G gs e c g hr hg, ih, assocGet_assocSet, if_pos rfl,
            bucketResult_some, bucketResult_some]
          simp [List.append_assoc]
        | none =>
          rw [groupStep_eq_miss G gs e c hr hg, ih, assocGet_append_single, hg]
          simp [bucketResult, newBucket]
      · rw [if_neg hk]
        have hget : assocGet (groupStep G gs e) k = assocGet gs k := by
          cases hg : assocGet gs (coordKey c) with
          | some g =>
            rw [groupStep_eq_hit G gs e c g hr hg, assocGet_assocSet, if_neg hk]
          | none =>
            rw [groupStep_eq_miss G gs e c hr hg, assocGet_append_single]
            cases hgk : assocGet gs k with
            | some g' => rfl
            | none => simp [hk]
        rw [ih, hget]

theorem sumLen_assocSet (gs : List (String × LocGroup)) (k : String)
    (g g' : LocGroup) (h : assocGet gs k = some g) :
    sumLen (assocSet gs k g') + g.employees.length =
      sumLen gs + g'.employees.length := by
  induction gs with
  | nil => exact absurd h (by simp [assocGet])
  | cons p rest ih =>
    obtain ⟨k₁, g₁⟩ := p
    by_cases h1 : k₁ = k
    · subst h1
      have hg : g₁ = g := by
        simp [assocGet, List.find?_cons_of_pos] at h
        exact h
      subst hg
      rw [assocSet, if_pos rfl]
      simp [sumLen]
      omega
    · have hrest : assocGet rest k = some g := by
        simpa [assocGet, List.find?_cons_of_neg, h1] using h
      rw [assocSet, if_neg h1]
      have := ih hrest
      simp [sumLen] at this ⊢
      omega

theorem sumLen_append_single (gs : List (String × LocGroup)) (k : String)
    (g : LocGroup) :
    sumLen (gs ++ [(k, g)]) = sumLen gs + g.employees.length := by
  simp [sumLen]

theorem fold_sumLen (G : List (String × GeocodeResult)) :
    ∀ (emps : List Employee) (gs : List (String × LocGroup)),
    sumLen (emps.foldl (groupStep G) gs) = sumLen gs + (resolvedPairs G emps).length := by
  intro emps
  induction emps with
  | nil => intro gs; simp [resolvedPairs]
  | cons e rest ih =>
    intro gs
    rw [List.foldl_cons]
    cases hr : resE G e with
    | none =>
      rw [groupStep_eq_skip G gs e hr, ih, resolvedPairs_cons_none G e rest hr]
    | some c =>
      rw [resolvedPairs_cons_some G e rest c hr]
      cases hg : assocGet gs (coordKey c) with
      | some g =>
        rw [groupStep_eq_hit G gs e c g hr hg, ih]
        have hsum := sumLen_assocSet gs (coordKey c) g
          ⟨g.lat, g.lng, g.name, g.employees ++ [e]⟩ hg
        have hlen : (⟨g.lat, g.lng, g.name, g.employees ++ [e]⟩ : LocGroup).employees.length =
            g.employees.length + 1 := by simp
        simp only [List.length_cons]
        omega
      | none =>
        rw [groupStep_eq_miss G gs e c hr hg, ih, sumLen_append_single]
        simp only [List.length_cons, List.length_nil]
        omega

theorem jsTrimL_eq_nil_iff (l : List Char) :
    jsTrimL l = [] ↔ ∀ c ∈ l, jsWsB c = true := by
  unfold jsTrimL
  rw [List.reverse_eq_nil_iff, List.dropWhile_eq_nil_iff]
  constructor
  · intro h c hc
    have hdecomp : l.takeWhile jsWsB ++ l.dropWhile jsWsB = l :=
      List.takeWhile_append_dropWhile jsWsB l
    rw [← hdecomp] at hc
    rcases List.mem_append.mp hc with htk | hdr
    · exact List.mem_takeWhile_imp htk
    · exact h c (List.mem_reverse.mpr hdr)
  · intro h c hc
    exact h c ((dropWhile_suffix jsWsB l).subset (List.mem_reverse.mp hc))

theorem splitDelims_ne_nil (l : List Char) : splitDelims l ≠ [] := by
  cases l with
  | nil => simp [splitDelims]
  | cons c cs =>
    by_cases hc : isDelimB c = true
    · cases cs with
      | nil => simp [splitDelims, hc]
      | cons d tl =>
        by_cases hd : isDelimB d = true
        · simp only [splitDelims, hc, if_true]
          rw [if_pos hd]
          exact splitDelims_ne_nil (d :: tl)
        · simp [splitDelims, hc, hd]
    · simp only [splitDelims]
      rw [if_neg hc]
      cases splitDelims cs <;> simp

theorem partsFromL_eq_nil_iff (l : List Char) :
    partsFromL l = [] ↔ ∀ c ∈ l, (isDelimB c || jsWsB c) = true := by
  induction l with
  | nil => simp [partsFromL, splitDelims, jsTrimL]
  | cons c cs ih =>
    by_cases hc : isDelimB c = true
    · have hsplit : partsFromL (c :: cs) = partsFromL cs := by
        cases cs with
        | nil => simp [partsFromL, splitDelims, hc, jsTrimL]
        | cons d tl =>
          by_cases hd : isDelimB d = true
          · unfold partsFromL
            simp only [splitDelims, hc, if_true]
            rw [if_pos hd]
          · unfold partsFromL
            simp only [splitDelims, hc, if_true]
            rw [if_neg hd]
            simp [jsTrimL]
      rw [hsplit, ih]
      simp [hc]
    · obtain ⟨f, rest, hfr⟩ : ∃ f rest, splitDelims cs = f :: rest := by
        cases h : splitDelims cs with
        | nil => exact absurd h (splitDelims_ne_nil cs)
        | cons f rest => exact ⟨f, rest, rfl⟩
      have hsplit : splitDelims (c :: cs) = (c :: f) :: rest := by
        simp only [splitDelims]
        rw [if_neg hc, hfr]
      have hcs : partsFromL cs = [] ↔
          jsTrimL f = [] ∧ ((rest.map jsTrimL).filter (fun p => p ≠ [])) = [] := by
        unfold partsFromL
        rw [hfr]
        simp only [List.map_cons, List.filter_cons]
        by_cases hf : jsTrimL f = []
        · simp [hf]
        · simp [hf]
      have hgoal : partsFromL (c :: cs) = [] ↔
          jsTrimL (c :: f) = [] ∧ ((rest.map jsTrimL).filter (fun p => p ≠ [])) = [] := by
        unfold partsFromL
        rw [hsplit]
        simp only [List.map_cons, List.filter_cons]
        by_cases hf : jsTrimL (c :: f) = []
        · simp [hf]
        · simp [hf]
      rw [hgoal]
      simp only [List.mem_cons, jsTrimL_eq_nil_iff]
      constructor
      · rintro ⟨hall, hrest⟩
        have hwc : jsWsB c = true := hall c (Or.inl rfl)
        intro x hx
        rcases hx with hx | hx
        · subst hx; simp [hwc]
        · have : ∀ y ∈ cs, (isDelimB y || jsWsB y) = true := by
            rw [← ih, hcs]
            exact ⟨(jsTrimL_eq_nil_iff f).mpr (fun y hy => hall y (Or.inr hy)), hrest⟩
          exact this x hx
      · intro hall
        have hwc : jsWsB c = true := by
          have h1 := hall c (Or.inl rfl)
          revert h1
          simp [hc]
        have hcs' : partsFromL cs = [] := by
          rw [ih]
          intro y hy
          exact hall y (Or.inr hy)
        rw [hcs] at hcs'
        refine ⟨fun y hy => ?_, hcs'.2⟩
        rcases hy with rfl | hy
        · exact hwc
        · exact (jsTrimL_eq_nil_iff f).mp hcs'.1 y hy

theorem matchLit_decomp : ∀ (L cs rest : List Char), matchLit L cs = some rest →
    ∃ pre, cs = pre ++ rest ∧ pre.map jsToLower = L := by
  intro L
  induction L with
  | nil =>
    intro cs rest h
    refine ⟨[], ?_, rfl⟩
    simpa [matchLit] using Option.some.inj h
  | cons a L ih =>
    intro cs rest h
    cases cs with
    | nil => exact Option.noConfusion h
    | cons c cs' =>
      by_cases hca : jsToLower c = a
      · rw [matchLit, if_pos hca] at h
        obtain ⟨pre, hpre, hmap⟩ := ih cs' rest h
        exact ⟨c :: pre, by rw [List.cons_append, ← hpre], by
          rw [List.map_cons, hmap, hca]⟩
      · rw [matchLit, if_neg hca] at h
        exact Option.noConfusion h

theorem matchElem_decomp : ∀ (p : PatElem) (cs rest : List Char),
    matchElem p cs = some rest → ∃ pre, cs = pre ++ rest ∧
      (∀ L, p = PatElem.lit L → pre.map jsToLower = L) := by
  intro p cs rest h
  cases p with
  | ws =>
    refine ⟨cs.takeWhile jsWsB, ?_, fun L hL => PatElem.noConfusion hL⟩
    have hr : rest = cs.dropWhile jsWsB := (Option.some.inj h).symm
    rw [hr, List.takeWhile_append_dropWhile]
  | hyphO =>
    cases cs with
    | nil =>
      refine ⟨[], ?_, fun L hL => PatElem.noConfusion hL⟩
      simpa [matchElem] using Option.some.inj h
    | cons c cs' =>
      by_cases hc : c = '-'
      · rw [matchElem, if_pos hc] at h
        refine ⟨[c], ?_, fun L hL => PatElem.noConfusion hL⟩
        rw [← Option.some.inj h]
        rfl
      · rw [matchElem, if_neg hc] at h
        refine ⟨[], ?_, fun L hL => PatElem.noConfusion hL⟩
        simpa using Option.some.inj h
  | lit L =>
    obtain ⟨pre, hpre, hmap⟩ := matchLit_decomp L cs rest h
    exact ⟨pre, hpre, fun L' hL' => by rw [← PatElem.lit.inj hL', hmap]⟩

theorem matchSeq_decomp : ∀ (ps : List PatElem) (cs rest : List Char),
    matchSeq ps cs = some rest → ∃ pre, cs = pre ++ rest ∧
      (∀ L, PatElem.lit L ∈ ps → L <:+: pre.map jsToLower) := by
  intro ps
  induction ps with
  | nil =>
    intro cs rest h
    refine ⟨[], by simpa [matchSeq] using Option.some.inj h, ?_⟩
    intro L hL
    exact absurd hL (List.not_mem_nil _)
  | cons p ps' ih =>
    intro cs rest h
    rw [matchSeq] at h
    cases he : matchElem p cs with
    | none => rw [he] at h; exact Option.noConfusion h
    | some mid =>
      rw [he] at h
      obtain ⟨pre₁, hpre₁, hlit₁⟩ := matchElem_decomp p cs mid he
      obtain ⟨pre₂, hpre₂, hlit₂⟩ := ih mid rest h
      refine ⟨pre₁ ++ pre₂, by rw [hpre₁, hpre₂, List.append_assoc], ?_⟩
      intro L hL
      rcases List.mem_cons.mp hL with rfl | hL'
      · rw [List.map_append, hlit₁ L rfl]
        exact ⟨[], pre₂.map jsToLower, by simp⟩
      · have hinf := hlit₂ L hL'
        rw [List.map_append]
        exact hinf.trans ⟨pre₁.map jsToLower, [], by simp⟩

theorem infix_of_infix_cons {L l : List Char} {a : Char} (h : L <:+: l.map jsToLower) :
    L <:+: (a :: l).map jsToLower := by
  obtain ⟨s, t, hst⟩ := h
  exact ⟨jsToLower a :: s, t, by rw [List.map_cons, ← hst]; rfl⟩

theorem matchSeq_none_of_missing_lit (ps : List PatElem) (L cs : List Char)
    (hL : PatElem.lit L ∈ ps) (h : ¬ L <:+: cs.map jsToLower) :
    matchSeq ps cs = none := by
  cases hm : matchSeq ps cs with
  | none => rfl
  | some rest =>
    obtain ⟨pre, hpre, hlit⟩ := matchSeq_decomp ps cs rest hm
    have hinf := hlit L hL
    rw [hpre, List.map_append] at h
    exact absurd (hinf.trans ⟨[], rest.map jsToLower, by simp⟩) h

theorem replaceAllF_id (pat : List PatElem) (L : List Char)
    (hL : PatElem.lit L ∈ pat) : ∀ (n : Nat) (l : List Char),
    ¬ L <:+: l.map jsToLower → replaceAllF pat n l = l := by
  intro n
  induction n with
  | zero => intro l _; rfl
  | succ n ih =>
    intro l hnot
    cases l with
    | nil => rfl
    | cons c cs =>
      rw [replaceAllF, matchSeq_none_of_missing_lit pat L (c :: cs) hL hnot]
      have hnot' : ¬ L <:+: cs.map jsToLower := fun h => hnot (infix_of_infix_cons h)
      rw [ih cs hnot']

theorem replaceAll_id (pat : List PatElem) (L : List Char)
    (hL : PatElem.lit L ∈ pat) (l : List Char) (hnot : ¬ L <:+: l.map jsToLower) :
    replaceAll pat l = l :=
  replaceAllF_id pat L hL l.length l hnot

theorem replaceStartAnchored_id (l : List Char)
    (hnot : ¬ ['r','e','m','o','t','e'] <:+: l.map jsToLower) :
    replaceStartAnchored l = l := by
  unfold replaceStartAnchored
  rw [matchSeq_none_of_missing_lit p5pat ['r','e','m','o','t','e'] l (by decide) hnot]

theorem replaceEndAnchored_id : ∀ (l : List Char),
    ¬ ['r','e','m','o','t','e'] <:+: l.map jsToLower → replaceEndAnchored l = l := by
  intro l
  induction l with
  | nil => intro _; rfl
  | cons c cs ih =>
    intro hnot
    have hmatch : isEndMatch (c :: cs) = false := by
      unfold isEndMatch
      rw [matchSeq_none_of_missing_lit p6pat ['r','e','m','o','t','e'] (c :: cs)
        (by decide) hnot]
    rw [replaceEndAnchored, hmatch]
    simp only [Bool.false_eq_true, if_false]
    rw [ih (fun h => hnot (infix_of_infix_cons h))]

theorem stripPhrases_id (l : List Char) (h : NoQualifier l) : stripPhrases l = l := by
  obtain ⟨h1, h2, h3, h4⟩ := h
  unfold stripPhrases
  rw [replaceAll_id p1pat ['w','o','r','k'] (by decide) l h1,
    replaceAll_id p2pat ['w','f','h'] (by decide) l h2,
    replaceAll_id p3pat ['o','f','f','i','c','e'] (by decide) l h3,
    replaceAll_id p4pat ['o','f','f','i','c','e'] (by decide) l h3,
    replaceStartAnchored_id l h4, replaceEndAnchored_id l h4]

theorem matchSeq_shrink (ps : List PatElem) (L : List Char)
    (hL : PatElem.lit L ∈ ps) (hne : L ≠ []) (cs rest : List Char)
    (h : matchSeq ps cs = some rest) : rest.length < cs.length := by
  obtain ⟨pre, hpre, hlit⟩ := matchSeq_decomp ps cs rest h
  have hinf := hlit L hL
  have hprene : pre ≠ [] := by
    rintro rfl
    simp only [List.map_nil] at hinf
    exact hne (List.eq_nil_of_infix_nil hinf)
  have : 0 < pre.length := List.length_pos.mpr hprene
  rw [hpre, List.length_append]
  omega

theorem replaceAllF_cons_some (pat : List PatElem) (n : Nat) (c : Char)
    (cs r : List Char) (h : matchSeq pat (c :: cs) = some r) :
    replaceAllF pat (n + 1) (c :: cs) = ' ' :: replaceAllF pat n r := by
  simp [replaceAllF, h]

theorem replaceAllF_cons_none (pat : List PatElem) (n : Nat) (c : Char)
    (cs : List Char) (h : matchSeq pat (c :: cs) = none) :
    replaceAllF pat (n + 1) (c :: cs) = c :: replaceAllF pat n cs := by
  simp [replaceAllF, h]

theorem replaceAllF_fuel (pat : List PatElem)
    (hs : ∀ cs rest, matchSeq pat cs = some rest → rest.length < cs.length) :
    ∀ (k : Nat) (l : List Char), l.length ≤ k →
    ∀ n, l.length ≤ n → replaceAllF pat n l = replaceAllF pat l.length l := by
  intro k
  induction k with
  | zero =>
    intro l hl n _
    have : l = [] := List.eq_nil_of_length_eq_zero (Nat.le_zero.mp hl)
    subst this
    cases n <;> rfl
  | succ k ih =>
    intro l hl n hn
    cases l with
    | nil => cases n <;> rfl
    | cons c cs =>
      cases n with
      | zero => exact absurd hn (by simp)
      | succ n' =>
        have hn' : cs.length ≤ n' := by
          have := hn; simp only [List.length_cons] at this; omega
        have hk : cs.length ≤ k := by
          have := hl; simp only [List.length_cons] at this; omega
        simp only [List.length_cons]
        cases hm : matchSeq pat (c :: cs) with
        | some r =>
          have hr : r.length < cs.length + 1 := by
            have hlen := hs (c :: cs) r hm
            simpa using hlen
          have hrk : r.length ≤ k := by omega
          rw [replaceAllF_cons_some pat n' c cs r hm,
            replaceAllF_cons_some pat cs.length c cs r hm,
            ih r hrk n' (by omega), ih r hrk cs.length (by omega)]
        | none =>
          rw [replaceAllF_cons_none pat n' c cs hm,
            replaceAllF_cons_none pat cs.length c cs hm, ih cs hk n' hn']

/-- Fuel adequacy for the four unanchored patterns: any fuel at least the
input length computes the same replacement, so `replaceAll`'s choice of
`l.length` is as good as unbounded fuel. -/
theorem replaceAll_fuel_adequate (l : List Char) (n : Nat) (hn : l.length ≤ n) :
    replaceAllF p1pat n l = replaceAll p1pat l ∧
    replaceAllF p2pat n l = replaceAll p2pat l ∧
    replaceAllF p3pat n l = replaceAll p3pat l ∧
    replaceAllF p4pat n l = replaceAll p4pat l := by
  refine ⟨?_, ?_, ?_, ?_⟩
  · exact replaceAllF_fuel p1pat
      (matchSeq_shrink p1pat ['w','o','r','k'] (by decide) (by decide))
      l.length l (Nat.le_refl _) n hn
  · exact replaceAllF_fuel p2pat
      (matchSeq_shrink p2pat ['w','f','h'] (by decide) (by decide))
      l.length l (Nat.le_refl _) n hn
  · exact replaceAllF_fuel p3pat
      (matchSeq_shrink p3pat ['h','o','m','e'] (by decide) (by decide))
      l.length l (Nat.le_refl _) n hn
  · exact replaceAllF_fuel p4pat
      (matchSeq_shrink p4pat ['o','f','f','i','c','e'] (by decide) (by decide))
      l.length l (Nat.le_refl _) n hn

example : geocodePure d0 "California, United States" = some (mkUS calif) := by decide

example : geocodePure d0 "United States - California" = some (mkCountry usCountry) := by decide

example : geocodePure d0 "Can-ada" = none := by decide

example : geocodePure d0 "Canada" = some (mkCountry canada) := by decide

example : geocodePure d0 "CA" = some (mkUS calif) := by decide

example : (geocode (some dBang) [] "-").1 = none := by decide

example : (geocode (some dBang) [] "!!!").1 = some ⟨mkRat 1 1, mkRat 2 1, "!!!", "!!!"⟩ := by
  decide

theorem getPinRadius_mono (M c₁ c₂ : ℝ) (hM : 1 ≤ M) (hc₁ : 1 ≤ c₁) (hc : c₁ ≤ c₂) :
    getPinRadius c₁ M ≤ getPinRadius c₂ M := by
  have hD : 0 < Real.log (M + 1) := Real.log_pos (by linarith)
  have hnum : Real.log (c₁ + 1) ≤ Real.log (c₂ + 1) :=
    (Real.log_le_log_iff (by linarith) (by linarith)).mpr (by linarith)
  have hl : 0 ≤ Real.log (c₁ + 1) := Real.log_nonneg (by linarith)
  unfold getPinRadius pinBaseRadius pinMaxRadius
  have hdiv : Real.log (c₁ + 1) / Real.log (M + 1) ≤
      Real.log (c₂ + 1) / Real.log (M + 1) :=
    div_le_div_of_nonneg_right hnum hD.le
  nlinarith

theorem getPinRadius_bounds (M c : ℝ) (hc : 1 ≤ c) (hcM : c ≤ M) :
    pinBaseRadius ≤ getPinRadius c M ∧ getPinRadius c M ≤ pinMaxRadius := by
  have hD : 0 < Real.log (M + 1) := Real.log_pos (by linarith)
  have hl : 0 ≤ Real.log (c + 1) := Real.log_nonneg (by linarith)
  have hle : Real.log (c + 1) ≤ Real.log (M + 1) :=
    (Real.log_le_log_iff (by linarith) (by linarith)).mpr (by linarith)
  have hr0 : 0 ≤ Real.log (c + 1) / Real.log (M + 1) := div_nonneg hl hD.le
  have hr1 : Real.log (c + 1) / Real.log (M + 1) ≤ 1 := (div_le_one hD).mpr hle
  unfold getPinRadius pinBaseRadius pinMaxRadius
  constructor <;> nlinarith

theorem getPinRadius_strict (M : ℝ) (hM : 1 < M) :
    getPinRadius 1 M < getPinRadius M M := by
  have hD : 0 < Real.log (M + 1) := Real.log_pos (by linarith)
  have hlt : Real.log (1 + 1) < Real.log (M + 1) :=
    Real.log_lt_log (by norm_num) (by linarith)
  have hr1 : Real.log (1 + 1) / Real.log (M + 1) < 1 := (div_lt_one hD).mpr hlt
  have hself : Real.log (M + 1) / Real.log (M + 1) = 1 := div_self hD.ne'
  unfold getPinRadius pinBaseRadius pinMaxRadius
  rw [hself]
  nlinarith

theorem geocodeBatch_lookup (d : GeoData) (locs : List String)
    (hnd : ((jsDedup (locs.filter (fun l => l ≠ ""))).map normalize).Nodup)
    (x : String) :
    lookupStr (geocodeBatch (some d) [] locs).1 x =
      if x ∈ jsDedup (locs.filter (fun l => l ≠ "")) then geocodePure d x
      else none := by
  have hne : ∀ u ∈ jsDedup (locs.filter (fun l => l ≠ "")), u ≠ "" := by
    intro u hu
    have hmem := (mem_jsDedup u _).mp hu
    have := (List.mem_filter.mp hmem).2
    simpa using this
  have hmiss : ∀ u ∈ jsDedup (locs.filter (fun l => l ≠ "")),
      cacheGet ([] : Cache) (normalize u) = none := fun u _ => rfl
  exact (batchGo_spec d (jsDedup (locs.filter (fun l => l ≠ ""))) []
    hne hmiss hnd).1 x

theorem resE_employeeGeocoded (d : GeoData) (emps : List Employee)
    (hnd : ((jsDedup ((emps.map (fun e => e.location)).filter
      (fun l => l ≠ ""))).map normalize).Nodup)
    (e : Employee) (he : e ∈ emps) :
    resE (employeeGeocoded (some d) emps) e =
      if e.location = "" then none else geocodePure d e.location := by
  by_cases hl : e.location = ""
  · rw [resE, if_pos hl, if_pos hl]
  · rw [resE, if_neg hl, if_neg hl]
    have hdouble : (((emps.map (fun e => e.location)).filter
        (fun l => l ≠ "")).filter (fun l => l ≠ "")) =
        ((emps.map (fun e => e.location)).filter (fun l => l ≠ "")) :=
      List.filter_eq_self.mpr (fun a ha => (List.mem_filter.mp ha).2)
    have hnd' : ((jsDedup ((((emps.map (fun e => e.location)).filter
        (fun l => l ≠ ""))).filter (fun l => l ≠ ""))).map normalize).Nodup := by
      rw [hdouble]
      exact hnd
    have hx : e.location ∈ jsDedup (((((emps.map (fun e => e.location)).filter
        (fun l => l ≠ ""))).filter (fun l => l ≠ ""))) := by
      rw [hdouble, mem_jsDedup, List.mem_filter]
      refine ⟨List.mem_map_of_mem (fun e => e.location) he, ?_⟩
      simpa using hl
    rw [employeeGeocoded, geocodeBatch_lookup d ((emps.map
      (fun e => e.location)).filter (fun l => l ≠ "")) hnd', if_pos hx]

theorem assocGet_nil (k : String) : assocGet [] k = none := rfl

theorem group_members (G : List (String × GeocodeResult)) (emps : List Employee)
    (k : String) (g : LocGroup)
    (h : assocGet (emps.foldl (groupStep G) []) k = some g) :
    g.employees = (bucketPairs G k emps).map (fun p => p.1) := by
  rw [fold_assocGet, assocGet_nil] at h
  cases hb : bucketPairs G k emps with
  | nil =>
    rw [hb, bucketResult_none_nil] at h
    exact Option.noConfusion h
  | cons p ps =>
    obtain ⟨e₀, c₀⟩ := p
    rw [hb, bucketResult_none_cons] at h
    rw [← Option.some.inj h]
    rfl

theorem group_of_pair (G : List (String × GeocodeResult)) (emps : List Employee)
    (e : Employee) (c : GeocodeResult) (hp : (e, c) ∈ resolvedPairs G emps) :
    ∃ g, assocGet (emps.foldl (groupStep G) []) (coordKey c) = some g ∧
      e ∈ g.employees := by
  have hbp : (e, c) ∈ bucketPairs G (coordKey c) emps := by
    rw [bucketPairs, List.mem_filter]
    exact ⟨hp, by simp⟩
  cases hb : bucketPairs G (coordKey c) emps with
  | nil => rw [hb] at hbp; exact absurd hbp (List.not_mem_nil _)
  | cons p ps =>
    obtain ⟨e₀, c₀⟩ := p
    refine ⟨newBucket e₀ c₀ (ps.map (fun p => p.1)), ?_, ?_⟩
    · rw [fold_assocGet, assocGet_nil, hb, bucketResult_none_cons]
    · have : e ∈ (bucketPairs G (coordKey c) emps).map (fun p => p.1) :=
        List.mem_map_of_mem (fun p => p.1) hbp
      rw [hb] at this
      simpa [newBucket] using this

theorem pair_of_group_mem (G : List (String × GeocodeResult))
    (emps : List Employee) (k : String) (g : LocGroup) (e : Employee)
    (hget : assocGet (emps.foldl (groupStep G) []) k = some g)
    (hmem : e ∈ g.employees) :
    ∃ c, (e, c) ∈ resolvedPairs G emps ∧ coordKey c = k := by
  rw [group_members G emps k g hget] at hmem
  obtain ⟨p, hp, hpe⟩ := List.mem_map.mp hmem
  obtain ⟨e', c⟩ := p
  obtain ⟨hres, hkey⟩ := List.mem_filter.mp hp
  refine ⟨c, ?_, by simpa using hkey⟩
  have he' : e' = e := hpe
  rw [← he']
  exact hres

theorem resolvedPairs_length_eq (d : GeoData) (G : List (String × GeocodeResult))
    (emps : List Employee)
    (hres : ∀ e ∈ emps, resE G e =
      if e.location = "" then none else geocodePure d e.location) :
    (resolvedPairs G emps).length =
      (emps.filter (fun e => e.location ≠ "" ∧
        (geocodePure d e.location).isSome)).length := by
  induction emps with
  | nil => rfl
  | cons e rest ih =>
    have hrest := ih (fun x hx => hres x (List.mem_cons_of_mem e hx))
    have he := hres e (List.mem_cons_self e rest)
    rw [List.filter_cons]
    by_cases hl : e.location = ""
    · rw [if_pos hl] at he
      rw [resolvedPairs_cons_none G e rest he]
      simp [hl, hrest]
    · rw [if_neg hl] at he
      cases hg : geocodePure d e.location with
      | some c =>
        rw [hg] at he
        rw [resolvedPairs_cons_some G e rest c he]
        simp [hl, hrest]
      | none =>
        rw [hg] at he
        rw [resolvedPairs_cons_none G e rest he]
        simp [hl, hrest]

/-- C10: normalization is idempotent: for every string `s`,
`normalize(normalize(s))` equals `normalize(s)`. -/
theorem C10_normalize_idempotent (s : String) :
    normalize (normalize s) = normalize s := by
  show String.mk (normalizeL (normalizeL s.data)) = String.mk (normalizeL s.data)
  rw [normalizeL_idem]

/-- C4 counterexample: `normalize` does not collapse internal whitespace
(`"a  b"` keeps its two spaces, contradicting "any internal run of
whitespace becomes a single space"), and it keeps every `\s` character, not
only the space allowed by `[a-z0-9 ]` (a tab survives). -/
theorem C4_normalize_cex :
    normalize "a  b" = "a  b" ∧ normalize "a  b" ≠ "a b" ∧
    normalize "a\tb" = "a\tb" ∧ '\t' ∈ (normalize "a\tb").data := by decide

/-- C4 (amended): `normalize` is a pure total function that lower-cases,
strips diacritics and removes every character outside lowercase
alphanumerics and the `\s` whitespace class, and trims — but it preserves
internal whitespace as-is (no collapsing), and tabs/newlines survive
because the kept class is `\s`, not just the space character; empty input
yields the empty string. -/
theorem C4_normalize_amended :
    (∀ s : String, ∀ c ∈ (normalize s).data,
      (97 ≤ c.toNat ∧ c.toNat ≤ 122) ∨ (48 ≤ c.toNat ∧ c.toNat ≤ 57) ∨
        jsWsB c = true) ∧
    (∀ s : String, jsTrimL (normalize s).data = (normalize s).data) ∧
    normalize "" = "" := by
  refine ⟨?_, ?_, rfl⟩
  · intro s c hc
    have hall : allowedB c = true := mem_normalizeL_allowed hc
    have hnum := allowed_num c hall
    by_cases h1 : 97 ≤ c.toNat ∧ c.toNat ≤ 122
    · exact Or.inl h1
    · by_cases h2 : 48 ≤ c.toNat ∧ c.toNat ≤ 57
      · exact Or.inr (Or.inl h2)
      · refine Or.inr (Or.inr ?_)
        simp only [jsWsB, decide_eq_true_eq]
        omega
  · intro s
    show jsTrimL (normalizeL s.data) = normalizeL s.data
    have hex : ∃ m, normalizeL s.data = jsTrimL m := ⟨_, rfl⟩
    obtain ⟨m, hm⟩ := hex
    rw [hm, jsTrimL_idem]

/-- C4 witness: the amended theorem applied to a concrete mixed-case input
with punctuation, instantiating the per-character bound at `'a'`. -/
theorem C4_normalize_witness :
    'a' ∈ (normalize " A b! ").data ∧
    ((97 ≤ 'a'.toNat ∧ 'a'.toNat ≤ 122) ∨ (48 ≤ 'a'.toNat ∧ 'a'.toNat ≤ 57) ∨
      jsWsB 'a' = true) ∧
    jsTrimL (normalize " A b! ").data = (normalize " A b! ").data :=
  ⟨by decide, C4_normalize_amended.1 " A b! " 'a' (by decide),
    C4_normalize_amended.2.1 " A b! "⟩

/-- C5 counterexample: `"-"` is a nonempty raw string, yet `parseLocation`
returns `none` for it — `none` is not returned only on empty/absent
input. -/
theorem C5_parse_cex : parseLocation "-" = none ∧ "-" ≠ "" := by decide

/-- C5 (amended): `parseLocation` returns `none` exactly when the raw input
is empty or when its cleaned form (after phrase stripping, with fallback to
the trimmed original if stripping emptied it) consists solely of commas,
hyphens and whitespace; otherwise it returns at least one token carrying
the original string; and when stripping leaves an empty string the parser
splits the original trimmed input instead. -/
theorem C5_parse_amended (raw : String) :
    (parseLocation raw = none ↔ raw = "" ∨
      ∀ c ∈ (fallbackStr raw).data, (isDelimB c || jsWsB c) = true) ∧
    (∀ pl, parseLocation raw = some pl → pl.original = raw ∧ pl.parts ≠ []) ∧
    (raw ≠ "" → cleanLocation raw = "" →
      parseLocation raw =
        (if partsFromL (jsTrimL raw.data) = [] then none
         else some ⟨raw, (partsFromL (jsTrimL raw.data)).map String.mk⟩)) := by
  refine ⟨?_, ?_, ?_⟩
  · by_cases hraw : raw = ""
    · simp [parseLocation, hraw]
    · rw [parseLocation, if_neg hraw]
      by_cases hps : partsFromL (fallbackStr raw).data = []
      · rw [if_pos hps]
        constructor
        · intro _
          exact Or.inr ((partsFromL_eq_nil_iff _).mp hps)
        · intro _
          rfl
      · rw [if_neg hps]
        constructor
        · intro h; exact Option.noConfusion h
        · rintro (h | h)
          · exact absurd h hraw
          · exact absurd ((partsFromL_eq_nil_iff _).mpr h) hps
  · intro pl hpl
    by_cases hraw : raw = ""
    · rw [parseLocation, if_pos hraw] at hpl
      exact Option.noConfusion hpl
    · rw [parseLocation, if_neg hraw] at hpl
      by_cases hps : partsFromL (fallbackStr raw).data = []
      · rw [if_pos hps] at hpl
        exact Option.noConfusion hpl
      · rw [if_neg hps] at hpl
        have hpl' := Option.some.inj hpl
        rw [← hpl']
        refine ⟨rfl, ?_⟩
        simp only [ne_eq, List.map_eq_nil_iff]
        exact hps
  · intro hraw hclean
    rw [parseLocation, if_neg hraw]
    have hfb : fallbackStr raw = String.mk (jsTrimL raw.data) := by
      rw [fallbackStr, if_pos hclean]
    rw [hfb]

/-- C5 witness: the amended theorem applied to `"Remote"`, whose stripping
empties the string, exercising the fallback clause. -/
theorem C5_parse_witness :
    ("Remote" ≠ "" ∧ cleanLocation "Remote" = "") ∧
    parseLocation "Remote" =
      (if partsFromL (jsTrimL "Remote".data) = [] then none
       else some ⟨"Remote", (partsFromL (jsTrimL "Remote".data)).map String.mk⟩) :=
  ⟨⟨by decide, by decide⟩, (C5_parse_amended "Remote").2.2 (by decide) (by decide)⟩

/-- C6 counterexample: the `office` rule matches inside longer words —
`"Officer"` is cleaned to `"r"`, not left intact. -/
theorem C6_strip_cex :
    cleanLocation "Officer" = "r" ∧ cleanLocation "Officer" ≠ "Officer" ∧
    parseLocation "Officer" = some ⟨"Officer", ["r"]⟩ := by decide

/-- C6 (amended): the removal rules apply case-insensitively in the fixed
source order, each replacing its match with a single space (whitespace is
re-collapsed afterwards); they strip nothing from strings containing none
of the qualifier substrings, but they remove the qualifier substrings
wherever they occur — including inside longer words, so `"Officer"`
becomes `"r"` rather than being left intact. -/
theorem C6_strip_amended :
    (∀ l : List Char, NoQualifier l → stripPhrases l = l) ∧
    cleanLocation "California - Work From Home" = "California" ∧
    cleanLocation "Sydney WFH" = "Sydney" ∧
    cleanLocation "Berlin Home Office" = "Berlin" ∧
    cleanLocation "Paris Office" = "Paris" ∧
    cleanLocation "Remote - Argentina" = "Argentina" ∧
    cleanLocation "Argentina - Remote" = "Argentina" ∧
    cleanLocation "Officer" = "r" :=
  ⟨stripPhrases_id, by decide, by decide, by decide, by decide, by decide,
    by decide, by decide⟩

/-- C6 witness: the amended theorem's qualifier-free clause applied to
`"New York, NY"`. -/
theorem C6_strip_witness :
    NoQualifier "New York, NY".data ∧
    stripPhrases "New York, NY".data = "New York, NY".data :=
  ⟨by decide, C6_strip_amended.1 "New York, NY".data (by decide)⟩

/-- C8: when the gazetteer failed to load (`dOpt = none`), `geocode` never
writes to the cache and never reports a resolver invocation, and — since a
failed load means the cache can only be empty — it returns `none` for
every input; it is a total function, so it never raises. -/
theorem C8_data_unavailable (cache : Cache) (raw : String) :
    (geocode none cache raw).2.1 = cache ∧ (geocode none cache raw).2.2 = false ∧
    (cache = [] → (geocode none cache raw).1 = none) := by
  by_cases hraw : raw = ""
  · subst hraw
    exact ⟨rfl, rfl, fun _ => rfl⟩
  · cases hc : cacheGet cache (normalize raw) with
    | some v =>
      rw [geocode_of_cached none hc hraw]
      refine ⟨rfl, rfl, ?_⟩
      intro hnil
      subst hnil
      simp [cacheGet] at hc
    | none =>
      simp [geocode, if_neg hraw, hc]

/-- C8 witness: the data-unavailable path at a concrete input from the
empty cache. -/
theorem C8_data_unavailable_witness :
    ([] : Cache) = [] ∧ (geocode none ([] : Cache) "California").1 = none :=
  ⟨rfl, (C8_data_unavailable [] "California").2.2 rfl⟩

/-- C1 counterexample: for `"United States - California"` the tokens contain
both a subdivision name (California, which matches the US-state tier) and a
country name, yet resolution returns the country's coordinates, because
token order takes precedence over tier order. -/
theorem C1_tier_cex :
    parseLocation "United States - California" =
      some ⟨"United States - California", ["United States", "California"]⟩ ∧
    findUSState d0 "California" = some calif ∧
    findCountry d0 "United States" = some usCountry ∧
    geocodePure d0 "United States - California" = some (mkCountry usCountry) ∧
    mkCountry usCountry ≠ mkUS calif := by decide

/-- C1 (amended): for each token in token order the tiers are tried in the
fixed order US states, Canadian provinces, Australian states, countries;
the first token/tier match ends the search with that entry's coordinates,
and a token with no match in any tier falls through to the next token.  In
particular a first token matching a subdivision wins over a later country
token (e.g. "California, United States"), but a subdivision named in a
later token does not override a country matched by an earlier token. -/
theorem C1_tier_token_order (d : GeoData) (raw : String) (pl : ParsedLocation)
    (t : String) (rest : List String) (hraw : raw ≠ "")
    (hp : parseLocation raw = some pl) (hparts : pl.parts = t :: rest) :
    (∀ s, findUSState d t = some s → geocodePure d raw = some (mkUS s)) ∧
    (findUSState d t = none → ∀ p, findCAProvince d t = some p →
      geocodePure d raw = some (mkCA p)) ∧
    (findUSState d t = none → findCAProvince d t = none →
      ∀ a, findAUState d t = some a → geocodePure d raw = some (mkAU a)) ∧
    (findUSState d t = none → findCAProvince d t = none → findAUState d t = none →
      ∀ c, findCountry d t = some c → geocodePure d raw = some (mkCountry c)) ∧
    (resolveToken d t = none → geocodePure d raw = resolveParts d rest) := by
  have hg : geocodePure d raw = resolveParts d (t :: rest) := by
    unfold geocodePure
    rw [if_neg hraw]
    simp only [hp]
    rw [hparts]
  have hcons : ∀ r, resolveToken d t = some r →
      resolveParts d (t :: rest) = some r := by
    intro r hr
    rw [resolveParts, hr]
  refine ⟨?_, ?_, ?_, ?_, ?_⟩
  · intro s hs
    rw [hg]
    exact hcons (mkUS s) (by rw [resolveToken, hs])
  · intro h1 p hs
    rw [hg]
    exact hcons (mkCA p) (by rw [resolveToken, h1, hs])
  · intro h1 h2 a hs
    rw [hg]
    exact hcons (mkAU a) (by rw [resolveToken, h1, h2, hs])
  · intro h1 h2 h3 c hs
    rw [hg]
    exact hcons (mkCountry c) (by rw [resolveToken, h1, h2, h3, hs])
  · intro h0
    rw [hg, resolveParts, h0]

/-- C1 witness: the amended theorem applied to `"California, United States"`
over the concrete gazetteer `d0`: the first token matches the US-state tier
and the subdivision's coordinates win. -/
theorem C1_tier_witness :
    ("California, United States" ≠ "" ∧
     parseLocation "California, United States" =
       some ⟨"California, United States", ["California", "United States"]⟩ ∧
     findUSState d0 "California" = some calif) ∧
    geocodePure d0 "California, United States" = some (mkUS calif) :=
  ⟨⟨by decide, by decide, by decide⟩,
   (C1_tier_token_order d0 "California, United States"
     ⟨"California, United States", ["California", "United States"]⟩ "California"
     ["United States"] (by decide) (by decide) (by decide)).1 calif (by decide)⟩

/-- C3 counterexample: over the gazetteer `dBang` the raw inputs `"-"` and
`"!!!"` normalize identically (both to `""`), yet the two calls return
different results: `"-"` fails to parse, is never cached, and yields
`none`, while the later call for `"!!!"` resolves. -/
theorem C3_cache_cex :
    normalize "-" = normalize "!!!" ∧
    (geocode (some dBang) [] "-").1 = none ∧
    (geocode (some dBang) ((geocode (some dBang) [] "-").2.1) "!!!").1 =
      some ⟨mkRat 1 1, mkRat 2 1, "!!!", "!!!"⟩ ∧
    (none : Option GeocodeResult) ≠ some ⟨mkRat 1 1, mkRat 2 1, "!!!", "!!!"⟩ := by
  decide

/-- C3 (amended): provided the first input parses to at least one token,
two consecutive `geocode` calls whose raw inputs normalize identically
return the identical cached value — including a cached `none` — with the
second call leaving the cache untouched and not invoking the tier-matching
resolver; and over any sequence of calls the tier-matching resolver runs at
most once per normalized key (unparseable inputs are never cached, but
they also never reach the tier-matching loop). -/
theorem C3_cache_consistent :
    (∀ (d : GeoData) (cache : Cache) (raw₁ raw₂ : String),
      normalize raw₁ = normalize raw₂ → parseLocation raw₁ ≠ none → raw₂ ≠ "" →
      ((geocode (some d) (geocode (some d) cache raw₁).2.1 raw₂).1 =
          (geocode (some d) cache raw₁).1 ∧
       (geocode (some d) (geocode (some d) cache raw₁).2.1 raw₂).2.1 =
          (geocode (some d) cache raw₁).2.1 ∧
       (geocode (some d) (geocode (some d) cache raw₁).2.1 raw₂).2.2 = false)) ∧
    (∀ (dOpt : Option GeoData) (cache : Cache) (k : String) (raws : List String),
      invCount dOpt k cache raws ≤ 1) := by
  constructor
  · intro d cache raw₁ raw₂ hn hp h₂
    have hraw₁ : raw₁ ≠ "" := by
      intro he
      exact hp (by rw [he]; rfl)
    have hkey : cacheGet (geocode (some d) cache raw₁).2.1 (normalize raw₁) =
        some ((geocode (some d) cache raw₁).1) := by
      cases hc : cacheGet cache (normalize raw₁) with
      | some v =>
        rw [geocode_of_cached (some d) hc hraw₁]
        exact hc
      | none =>
        cases hpl : parseLocation raw₁ with
        | none => exact absurd hpl hp
        | some pl =>
          rw [geocode_of_miss d hc hraw₁]
          simp only [hpl]
          rw [cacheGet_cons, if_pos rfl]
    rw [hn] at hkey
    rw [geocode_of_cached (some d) hkey h₂]
    exact ⟨rfl, rfl, rfl⟩
  · intro dOpt cache k raws
    exact invCount_le_one dOpt k cache raws

/-- C3 witness: the amended theorem applied to the spec's example pair
`"UK"` and `" uk "` over the gazetteer `d0`, from the empty cache. -/
theorem C3_cache_witness :
    (normalize "UK" = normalize " uk " ∧ parseLocation "UK" ≠ none ∧
      " uk " ≠ "") ∧
    ((geocode (some d0) (geocode (some d0) [] "UK").2.1 " uk ").1 =
        (geocode (some d0) [] "UK").1 ∧
     (geocode (some d0) (geocode (some d0) [] "UK").2.1 " uk ").2.1 =
        (geocode (some d0) [] "UK").2.1 ∧
     (geocode (some d0) (geocode (some d0) [] "UK").2.1 " uk ").2.2 = false) :=
  ⟨⟨by decide, by decide, by decide⟩,
   C3_cache_consistent.1 d0 [] "UK" " uk " (by decide) (by decide) (by decide)⟩

/-- C7 counterexample: in the batch `["Canada", "Can-ada"]` the string
`"Can-ada"` does not resolve on its own (its tokens `Can`/`ada` match
nothing), yet it is present in the result mapping, because it shares the
cache key `"canada"` with `"Canada"` — presence in the mapping is not
equivalent to the string itself resolving. -/
theorem C7_batch_cex :
    geocodePure d0 "Can-ada" = none ∧
    lookupStr (geocodeBatch (some d0) [] ["Canada", "Can-ada"]).1 "Can-ada" =
      some (mkCountry canada) := by decide

/-- C7 (amended): provided the deduplicated nonempty inputs have
pairwise-distinct normalized forms, batch resolution from a clean cache
maps exactly the inputs whose single-string resolution succeeds to their
resolution results (unresolved and empty inputs are absent, never present
with a `none`), and its keys are exactly the deduplicated resolvable
inputs in first-occurrence order, each resolved once. -/
theorem C7_batch_spec (d : GeoData) (locs : List String)
    (hnd : ((jsDedup (locs.filter (fun l => l ≠ ""))).map normalize).Nodup) :
    (∀ x r, lookupStr (geocodeBatch (some d) [] locs).1 x = some r ↔
      (x ∈ locs ∧ x ≠ "" ∧ geocodePure d x = some r)) ∧
    (geocodeBatch (some d) [] locs).1.map (fun p => p.1) =
      (jsDedup (locs.filter (fun l => l ≠ ""))).filter
        (fun u => (geocodePure d u).isSome) := by
  have hne : ∀ u ∈ jsDedup (locs.filter (fun l => l ≠ "")), u ≠ "" := by
    intro u hu
    have hmem := (mem_jsDedup u _).mp hu
    have := (List.mem_filter.mp hmem).2
    simpa using this
  have hmiss : ∀ u ∈ jsDedup (locs.filter (fun l => l ≠ "")),
      cacheGet ([] : Cache) (normalize u) = none := by
    intro u _
    rfl
  have hspec := batchGo_spec d (jsDedup (locs.filter (fun l => l ≠ ""))) []
    hne hmiss hnd
  have hbatch : geocodeBatch (some d) [] locs =
      batchGo (some d) [] (jsDedup (locs.filter (fun l => l ≠ ""))) := rfl
  constructor
  · intro x r
    rw [hbatch, hspec.1 x]
    have hx : x ∈ jsDedup (locs.filter (fun l => l ≠ "")) ↔
        (x ∈ locs ∧ x ≠ "") := by
      rw [mem_jsDedup, List.mem_filter]
      simp
    by_cases hxu : x ∈ jsDedup (locs.filter (fun l => l ≠ ""))
    · rw [if_pos hxu]
      have hx' := hx.mp hxu
      constructor
      · intro h
        exact ⟨hx'.1, hx'.2, h⟩
      · intro h
        exact h.2.2
    · rw [if_neg hxu]
      constructor
      · intro h
        exact Option.noConfusion h
      · intro h
        exact absurd (hx.mpr ⟨h.1, h.2.1⟩) hxu
  · rw [hbatch]
    exact hspec.2

/-- C7 witness: the amended theorem applied over `d0` to a list with a
duplicate-free key set, an empty entry and an unresolvable entry. -/
theorem C7_batch_witness :
    (((jsDedup ((["California", "CA", "", "Narnia"]).filter
        (fun l => l ≠ ""))).map normalize).Nodup) ∧
    ((∀ x r, lookupStr (geocodeBatch (some d0) []
        ["California", "CA", "", "Narnia"]).1 x = some r ↔
      (x ∈ ["California", "CA", "", "Narnia"] ∧ x ≠ "" ∧
        geocodePure d0 x = some r)) ∧
    (geocodeBatch (some d0) [] ["California", "CA", "", "Narnia"]).1.map
        (fun p => p.1) =
      (jsDedup ((["California", "CA", "", "Narnia"]).filter
        (fun l => l ≠ ""))).filter (fun u => (geocodePure d0 u).isSome)) :=
  ⟨by decide, C7_batch_spec d0 ["California", "CA", "", "Narnia"] (by decide)⟩

/-- C2 counterexample: with the gazetteer `d0` and employees located at
`"Canada"` and `"Can-ada"`, the string `"Can-ada"` does not resolve to any
coordinate on its own, yet employee 2 appears in the Canada group's
members, because the two strings share the cache key `"canada"` — so
inclusion is not equivalent to the person's own location string
resolving. -/
theorem C2_grouping_cex :
    geocodePure d0 "Can-ada" = none ∧
    assocGet (groupEmployeesByLocation (some d0) [⟨1, "Canada"⟩, ⟨2, "Can-ada"⟩])
        "56.13,-106.35" =
      some ⟨mkRat 561304 10000, mkRat (-1063468) 10000, "Canada",
        [⟨1, "Canada"⟩, ⟨2, "Can-ada"⟩]⟩ := by decide

/-- C2 (amended): provided the employees' distinct non-empty location
strings have pairwise-distinct normalized forms, a person appears in some
group exactly when they have a non-empty location that resolves; two
included people share a group exactly when their resolved coordinates
produce the same rounded 2-decimal `"lat,lng"` key; and the total
membership count across groups equals the number of successfully resolved
people, not the input count. -/
theorem C2_grouping_spec (d : GeoData) (emps : List Employee)
    (hnd : ((jsDedup ((emps.map (fun e => e.location)).filter
      (fun l => l ≠ ""))).map normalize).Nodup) :
    (∀ e ∈ emps,
      (∃ k g, assocGet (groupEmployeesByLocation (some d) emps) k = some g ∧
        e ∈ g.employees) ↔
      (e.location ≠ "" ∧ (geocodePure d e.location).isSome)) ∧
    (∀ e₁ e₂ c₁ c₂, e₁ ∈ emps → e₂ ∈ emps →
      e₁.location ≠ "" → e₂.location ≠ "" →
      geocodePure d e₁.location = some c₁ → geocodePure d e₂.location = some c₂ →
      ((∃ k g, assocGet (groupEmployeesByLocation (some d) emps) k = some g ∧
          e₁ ∈ g.employees ∧ e₂ ∈ g.employees) ↔ coordKey c₁ = coordKey c₂)) ∧
    sumLen (groupEmployeesByLocation (some d) emps) =
      (emps.filter (fun e => e.location ≠ "" ∧
        (geocodePure d e.location).isSome)).length := by
  have hres : ∀ e ∈ emps, resE (employeeGeocoded (some d) emps) e =
      if e.location = "" then none else geocodePure d e.location :=
    fun e he => resE_employeeGeocoded d emps hnd e he
  have hgrp : groupEmployeesByLocation (some d) emps =
      emps.foldl (groupStep (employeeGeocoded (some d) emps)) [] := rfl
  refine ⟨?_, ?_, ?_⟩
  · intro e he
    rw [hgrp]
    constructor
    · rintro ⟨k, g, hget, hmem⟩
      obtain ⟨c, hpair, _⟩ :=
        pair_of_group_mem (employeeGeocoded (some d) emps) emps k g e hget hmem
      have hr := (mem_resolvedPairs (employeeGeocoded (some d) emps) e c emps).mp
        hpair
      have := hres e he
      rw [hr.2] at this
      by_cases hl : e.location = ""
      · rw [if_pos hl] at this
        exact Option.noConfusion this
      · rw [if_neg hl] at this
        exact ⟨hl, by rw [← this]; rfl⟩
    · rintro ⟨hl, hsome⟩
      obtain ⟨c, hc⟩ := Option.isSome_iff_exists.mp hsome
      have hre : resE (employeeGeocoded (some d) emps) e = some c := by
        rw [hres e he, if_neg hl, hc]
      have hpair := (mem_resolvedPairs (employeeGeocoded (some d) emps) e c
        emps).mpr ⟨he, hre⟩
      obtain ⟨g, hg, hmem⟩ :=
        group_of_pair (employeeGeocoded (some d) emps) emps e c hpair
      exact ⟨coordKey c, g, hg, hmem⟩
  · intro e₁ e₂ c₁ c₂ he₁ he₂ hl₁ hl₂ hg₁ hg₂
    rw [hgrp]
    have hre₁ : resE (employeeGeocoded (some d) emps) e₁ = some c₁ := by
      rw [hres e₁ he₁, if_neg hl₁, hg₁]
    have hre₂ : resE (employeeGeocoded (some d) emps) e₂ = some c₂ := by
      rw [hres e₂ he₂, if_neg hl₂, hg₂]
    constructor
    · rintro ⟨k, g, hget, hm₁, hm₂⟩
      obtain ⟨c₁', hp₁, hk₁⟩ :=
        pair_of_group_mem (employeeGeocoded (some d) emps) emps k g e₁ hget hm₁
      obtain ⟨c₂', hp₂, hk₂⟩ :=
        pair_of_group_mem (employeeGeocoded (some d) emps) emps k g e₂ hget hm₂
      have h1 := (mem_resolvedPairs (employeeGeocoded (some d) emps) e₁ c₁'
        emps).mp hp₁
      have h2 := (mem_resolvedPairs (employeeGeocoded (some d) emps) e₂ c₂'
        emps).mp hp₂
      have hc₁ : c₁' = c₁ := Option.some.inj (h1.2.symm.trans hre₁)
      have hc₂ : c₂' = c₂ := Option.some.inj (h2.2.symm.trans hre₂)
      rw [hc₁] at hk₁
      rw [hc₂] at hk₂
      rw [hk₁, hk₂]
    · intro hk
      have hp₁ := (mem_resolvedPairs (employeeGeocoded (some d) emps) e₁ c₁
        emps).mpr ⟨he₁, hre₁⟩
      have hp₂ := (mem_resolvedPairs (employeeGeocoded (some d) emps) e₂ c₂
        emps).mpr ⟨he₂, hre₂⟩
      obtain ⟨g, hg, hm₁⟩ :=
        group_of_pair (employeeGeocoded (some d) emps) emps e₁ c₁ hp₁
      refine ⟨coordKey c₁, g, hg, hm₁, ?_⟩
      have hmembers := group_members (employeeGeocoded (some d) emps) emps
        (coordKey c₁) g hg
      rw [hmembers]
      have hbp₂ : (e₂, c₂) ∈ bucketPairs (employeeGeocoded (some d) emps)
          (coordKey c₁) emps := by
        rw [bucketPairs, List.mem_filter]
        exact ⟨hp₂, by simp [hk]⟩
      exact List.mem_map_of_mem (fun p => p.1) hbp₂
  · rw [hgrp, fold_sumLen]
    have hz : sumLen ([] : List (String × LocGroup)) = 0 := rfl
    rw [hz, Nat.zero_add]
    exact resolvedPairs_length_eq d (employeeGeocoded (some d) emps) emps hres

/-- C2 witness: the amended theorem applied over `d0` to four employees —
`"California"` and `"CA"` resolve to the same state, one has an empty
location and one an unresolvable one — instantiating the membership-count
clause. -/
theorem C2_grouping_witness :
    (((jsDedup ((([⟨1, "California"⟩, ⟨2, "CA"⟩, ⟨3, ""⟩, ⟨4, "Narnia"⟩] :
        List Employee).map (fun e => e.location)).filter
        (fun l => l ≠ ""))).map normalize).Nodup) ∧
    sumLen (groupEmployeesByLocation (some d0)
        [⟨1, "California"⟩, ⟨2, "CA"⟩, ⟨3, ""⟩, ⟨4, "Narnia"⟩]) =
      (([⟨1, "California"⟩, ⟨2, "CA"⟩, ⟨3, ""⟩, ⟨4, "Narnia"⟩] :
        List Employee).filter (fun e => e.location ≠ "" ∧
        (geocodePure d0 e.location).isSome)).length :=
  ⟨by decide,
   (C2_grouping_spec d0 [⟨1, "California"⟩, ⟨2, "CA"⟩, ⟨3, ""⟩, ⟨4, "Narnia"⟩]
     (by decide)).2.2⟩

/-- C9: the pin radius is exactly
`pinBaseRadius + (ln(count+1)/ln(maxCount+1)) * (pinMaxRadius - pinBaseRadius)`
with base 6 and max 20; for fixed `maxCountInView ≥ 1` it is non-decreasing
in `count`, stays within `[6, 20]` for `1 ≤ count ≤ maxCountInView`, and
`radius(maxCountInView)` strictly exceeds `radius(1)` whenever
`maxCountInView > 1`. -/
theorem C9_pin_radius :
    (∀ c M : ℝ, getPinRadius c M = pinBaseRadius +
      (Real.log (c + 1) / Real.log (M + 1)) * (pinMaxRadius - pinBaseRadius)) ∧
    pinBaseRadius = 6 ∧ pinMaxRadius = 20 ∧
    (∀ M c₁ c₂ : ℝ, 1 ≤ M → 1 ≤ c₁ → c₁ ≤ c₂ →
      getPinRadius c₁ M ≤ getPinRadius c₂ M) ∧
    (∀ M c : ℝ, 1 ≤ c → c ≤ M →
      pinBaseRadius ≤ getPinRadius c M ∧ getPinRadius c M ≤ pinMaxRadius) ∧
    (∀ M : ℝ, 1 < M → getPinRadius 1 M < getPinRadius M M) :=
  ⟨fun _ _ => rfl, rfl, rfl, getPinRadius_mono, getPinRadius_bounds,
    getPinRadius_strict⟩

/-- C9 witness: the monotonicity, bound and strictness clauses instantiated
at `count = 1, 2` and `maxCountInView = 3`. -/
theorem C9_pin_radius_witness :
    ((1 : ℝ) ≤ 3 ∧ (1 : ℝ) ≤ 1 ∧ (1 : ℝ) ≤ 2 ∧ (2 : ℝ) ≤ 3 ∧ (1 : ℝ) < 3) ∧
    getPinRadius 1 3 ≤ getPinRadius 2 3 ∧
    (pinBaseRadius ≤ getPinRadius 2 3 ∧ getPinRadius 2 3 ≤ pinMaxRadius) ∧
    getPinRadius 1 3 < getPinRadius 3 3 :=
  ⟨⟨by norm_num, by norm_num, by norm_num, by norm_num, by norm_num⟩,
   C9_pin_radius.2.2.2.1 3 1 2 (by norm_num) (by norm_num) (by norm_num),
   C9_pin_radius.2.2.2.2.1 3 2 (by norm_num) (by norm_num),
   C9_pin_radius.2.2.2.2.2 3 (by norm_num)⟩

end Bamboo
